import Mathlib

/-!
Verification of the incrementalization core of cozy (src/cozy/state_maintenance.py).

The development shallow-embeds the fragment of cozy's expression and statement
ASTs that the verified functions manipulate, together with the module's main
functions: `mutate`, `bag_delta` / `checked_bag_delta`, `better_mutate`,
`became_bool`, `fork`, `resolve_forks`, the bag helpers `bag_union` /
`bag_subtract` / `bag_intersection` / `bag_contains`, and `sketch_update`.

Modelling conventions:
- Expression types are erased from nodes (cozy attaches a type to every node
  with `with_type`; none of the verified control flow reads it except
  `better_mutate`'s bag/set test, which is modelled by the context's
  `is_collection` predicate, standing in for `isinstance(e.type, (TBag, TSet))`
  over the context's typing information).
- The expression fragment omits cozy's `EMap` / `EFilter` / `EFlatMap` /
  `EMakeRecord` / `EGetField` / distinct nodes; the corresponding cases of the
  source functions therefore do not appear.  All other cases are translated
  from the source in source order.
- Python exceptions are modelled by an `Except Err` monad.  `ForkOn`,
  `NotEfficient`, `NotImplementedError` and the `ValueError` of the `dbg`
  size check become `Err` constructors.  Recursion that the source runs
  unboundedly is given explicit fuel; running out of fuel is the distinct
  error `Err.outOfFuel` (the source would simply keep running).
- The SMT oracle (`cozy.solver`, not part of the sources) is a boolean
  validity oracle carried by the reasoning context; `solver_for ctx` returns
  it, modelling the per-context `ModelCachingSolver` cache, and the module's
  global `valid` import is modelled by the same oracle.
- Debug printing, `assert retypecheck`, and commented-out code are elided.
-/

namespace Cozy

/-- Binary operator tags of the embedded fragment; cozy uses operator strings
("+", "-", "==", "and", "or", "=>", "in", ">", ">=", "intersect"). -/
inductive BOp where
  | add | sub | eq | conj | disj | impl | mem | gt | ge | intersect
deriving DecidableEq, Repr

/-- Unary operator tags; cozy's UOp values "not", "exists", "len", "the",
"empty". -/
inductive UOp where
  | uNot | uExists | uLen | uThe | uEmpty
deriving DecidableEq, Repr

/-- Expression AST fragment of cozy's typed expression trees (types erased).
`EMakeMinHeap` / `EMakeMaxHeap` / `EHeapPeek2` model the heap abstraction of
cozy.structures.heaps (not part of the sources): the spec describes the
argmin second-best as "tracked via a heap-peek abstraction". -/
inductive Exp where
  | EVar (id : String)
  | ENum (n : Int)
  | EBool (b : Bool)
  | EEmptyList
  | ESingleton (e : Exp)
  | EBinOp (e1 : Exp) (op : BOp) (e2 : Exp)
  | EUnaryOp (op : UOp) (e : Exp)
  | ECond (c : Exp) (t : Exp) (e : Exp)
  | EStateVar (e : Exp)
  | ELambda (arg : String) (body : Exp)
  | ECall (f : String) (args : List Exp)
  | EArgMin (e : Exp) (f : Exp)
  | EArgMax (e : Exp) (f : Exp)
  | EMakeMinHeap (e : Exp) (f : Exp)
  | EMakeMaxHeap (e : Exp) (f : Exp)
  | EHeapPeek2 (h : Exp) (n : Exp)
deriving Repr

open Exp

/-- Statement AST: no-op, assignment, collection call, conditional, sequence,
local declaration, and the for-each loop emitted by `sketch_update`.
The call's function name is a string, as in the source. -/
inductive Stm where
  | SNoOp
  | SAssign (lhs : Exp) (rhs : Exp)
  | SCall (target : Exp) (func : String) (arg : Exp)
  | SIf (cond : Exp) (then_branch : Stm) (else_branch : Stm)
  | SSeq (s1 : Stm) (s2 : Stm)
  | SDecl (id : String) (val : Exp)
  | SForEach (id : String) (bag : Exp) (body : Stm)
deriving Repr

open Stm

/-- cozy's syntax.T. -/
def eT : Exp := EBool true

/-- cozy's syntax.F. -/
def eF : Exp := EBool false

/-- cozy's syntax.ENot. -/
def eNot (e : Exp) : Exp := EUnaryOp .uNot e

/-- cozy's syntax.EImplies. -/
def eImplies (a b : Exp) : Exp := EBinOp a .impl b

/-- cozy's syntax.EEq. -/
def eEq (a b : Exp) : Exp := EBinOp a .eq b

/-- cozy's syntax.EIn. -/
def eIn (x bag : Exp) : Exp := EBinOp x .mem bag

/-- cozy's syntax.EEmpty. -/
def eEmpty (e : Exp) : Exp := EUnaryOp .uEmpty e

/-- cozy's syntax.EAll: conjunction of a list of formulas (T when empty). -/
def eAll : List Exp → Exp
  | [] => eT
  | [e] => e
  | e :: es => EBinOp e .conj (eAll es)

/-- cozy's syntax.EAny: disjunction of a list of formulas (F when empty). -/
def eAny : List Exp → Exp
  | [] => eF
  | [e] => e
  | e :: es => EBinOp e .disj (eAny es)

/-- cozy's syntax.ESum. -/
def eSum : List Exp → Exp
  | [] => ENum 0
  | [e] => e
  | e :: es => EBinOp e .add (eSum es)

mutual

/-- Node count of an expression, modelling cozy ADT.size (used by the dbg
size check on bag_delta results). -/
def esize : Exp → Nat
  | EVar _ => 1
  | ENum _ => 1
  | EBool _ => 1
  | EEmptyList => 1
  | ESingleton e => 1 + esize e
  | EBinOp a _ b => 1 + esize a + esize b
  | EUnaryOp _ e => 1 + esize e
  | ECond c t e => 1 + esize c + esize t + esize e
  | EStateVar e => 1 + esize e
  | ELambda _ b => 1 + esize b
  | ECall _ args => 1 + esizeList args
  | EArgMin e f => 1 + esize e + esize f
  | EArgMax e f => 1 + esize e + esize f
  | EMakeMinHeap e f => 1 + esize e + esize f
  | EMakeMaxHeap e f => 1 + esize e + esize f
  | EHeapPeek2 h n => 1 + esize h + esize n

/-- Total node count of a list of expressions. -/
def esizeList : List Exp → Nat
  | [] => 0
  | e :: es => esize e + esizeList es

end

mutual

/-- Free variables of an expression, modelling cozy.syntax_tools.free_vars
(not part of the sources); lambda binders are removed. -/
def free_vars : Exp → List String
  | EVar x => [x]
  | ENum _ => []
  | EBool _ => []
  | EEmptyList => []
  | ESingleton e => free_vars e
  | EBinOp a _ b => free_vars a ++ free_vars b
  | EUnaryOp _ e => free_vars e
  | ECond c t e => free_vars c ++ free_vars t ++ free_vars e
  | EStateVar e => free_vars e
  | ELambda a b => (free_vars b).filter (fun y => y ≠ a)
  | ECall _ args => free_vars_list args
  | EArgMin e f => free_vars e ++ free_vars f
  | EArgMax e f => free_vars e ++ free_vars f
  | EMakeMinHeap e f => free_vars e ++ free_vars f
  | EMakeMaxHeap e f => free_vars e ++ free_vars f
  | EHeapPeek2 h n => free_vars h ++ free_vars n

/-- Free variables of a list of expressions, in order. -/
def free_vars_list : List Exp → List String
  | [] => []
  | e :: es => free_vars e ++ free_vars_list es

end

/-- Fresh-name supply, modelling cozy.common.fresh_var's guarantee of a name
avoiding a given set: tries base, base ++ "_", base ++ "__", ...; among the
first (length avoid + 1) candidates, all pairwise distinct, one must avoid the
list. -/
def fresh_var (base : String) (avoid : List String) : String :=
  (((List.range (avoid.length + 1)).map
      (fun k => base ++ String.mk (List.replicate k '_'))).find?
    (fun s => !avoid.contains s)).getD base

/-- Lookup in a substitution map (earliest binding wins). -/
def sub_lookup (σ : List (String × Exp)) (x : String) : Option Exp :=
  (σ.find? (fun p => p.1 == x)).map (fun p => p.2)

mutual

/-- Capture-avoiding simultaneous substitution, modelling
cozy.syntax_tools.subst (not part of the sources; the spec requires ordinary
capture-avoiding substitution).  At a lambda the bound name is removed from
the map and, to avoid capture, renamed fresh with respect to the remaining
map's ranges and the body. -/
def subst : Exp → List (String × Exp) → Exp
  | EVar x, σ =>
    match sub_lookup σ x with
    | some r => r
    | none => EVar x
  | ENum n, _ => ENum n
  | EBool b, _ => EBool b
  | EEmptyList, _ => EEmptyList
  | ESingleton e, σ => ESingleton (subst e σ)
  | EBinOp a op b, σ => EBinOp (subst a σ) op (subst b σ)
  | EUnaryOp op e, σ => EUnaryOp op (subst e σ)
  | ECond c t e, σ => ECond (subst c σ) (subst t σ) (subst e σ)
  | EStateVar e, σ => EStateVar (subst e σ)
  | ELambda a b, σ =>
    let σ' := σ.filter (fun p => p.1 ≠ a)
    let a' := fresh_var a ((σ'.map (fun p => p.1 :: free_vars p.2)).flatten ++
      (free_vars b).filter (fun y => y ≠ a))
    ELambda a' (subst b ((a, EVar a') :: σ'))
  | ECall f args, σ => ECall f (subst_list args σ)
  | EArgMin e f, σ => EArgMin (subst e σ) (subst f σ)
  | EArgMax e f, σ => EArgMax (subst e σ) (subst f σ)
  | EMakeMinHeap e f, σ => EMakeMinHeap (subst e σ) (subst f σ)
  | EMakeMaxHeap e f, σ => EMakeMaxHeap (subst e σ) (subst f σ)
  | EHeapPeek2 h n, σ => EHeapPeek2 (subst h σ) (subst n σ)

/-- Substitution mapped over a list of expressions. -/
def subst_list : List Exp → List (String × Exp) → List Exp
  | [], _ => []
  | e :: es, σ => subst e σ :: subst_list es σ

end

/-- Variable comparison under a stack of paired bound names: a bound name on
either side must be paired with the other, a free name must equal a free
name. -/
def aeq_var (m : List (String × String)) (a b : String) : Bool :=
  match m with
  | [] => a == b
  | (x, y) :: rest =>
    if x == a || y == b then x == a && y == b else aeq_var rest a b

mutual

/-- Alpha-equivalence of expressions, modelling
cozy.syntax_tools.alpha_equivalent (not part of the sources; the spec makes
alpha-equivalence the equality notion for bound-variable trees). -/
def aeq (m : List (String × String)) : Exp → Exp → Bool
  | EVar a, e2 =>
    match e2 with
    | EVar b => aeq_var m a b
    | _ => false
  | ENum n, e2 =>
    match e2 with
    | ENum n' => n == n'
    | _ => false
  | EBool b, e2 =>
    match e2 with
    | EBool b' => b == b'
    | _ => false
  | EEmptyList, e2 =>
    match e2 with
    | EEmptyList => true
    | _ => false
  | ESingleton e, e2 =>
    match e2 with
    | ESingleton e' => aeq m e e'
    | _ => false
  | EBinOp a op b, e2 =>
    match e2 with
    | EBinOp a' op' b' => op == op' && aeq m a a' && aeq m b b'
    | _ => false
  | EUnaryOp op e, e2 =>
    match e2 with
    | EUnaryOp op' e' => op == op' && aeq m e e'
    | _ => false
  | ECond c t e, e2 =>
    match e2 with
    | ECond c' t' e' => aeq m c c' && aeq m t t' && aeq m e e'
    | _ => false
  | EStateVar e, e2 =>
    match e2 with
    | EStateVar e' => aeq m e e'
    | _ => false
  | ELambda a b, e2 =>
    match e2 with
    | ELambda a' b' => aeq ((a, a') :: m) b b'
    | _ => false
  | ECall f args, e2 =>
    match e2 with
    | ECall f' args' => f == f' && aeq_list m args args'
    | _ => false
  | EArgMin e f, e2 =>
    match e2 with
    | EArgMin e' f' => aeq m e e' && aeq m f f'
    | _ => false
  | EArgMax e f, e2 =>
    match e2 with
    | EArgMax e' f' => aeq m e e' && aeq m f f'
    | _ => false
  | EMakeMinHeap e f, e2 =>
    match e2 with
    | EMakeMinHeap e' f' => aeq m e e' && aeq m f f'
    | _ => false
  | EMakeMaxHeap e f, e2 =>
    match e2 with
    | EMakeMaxHeap e' f' => aeq m e e' && aeq m f f'
    | _ => false
  | EHeapPeek2 h n, e2 =>
    match e2 with
    | EHeapPeek2 h' n' => aeq m h h' && aeq m n n'
    | _ => false

/-- Pointwise alpha-equivalence of expression lists. -/
def aeq_list (m : List (String × String)) : List Exp → List Exp → Bool
  | [], l2 =>
    match l2 with
    | [] => true
    | _ => false
  | e :: es, l2 =>
    match l2 with
    | e' :: es' => aeq m e e' && aeq_list m es es'
    | _ => false

end

/-- Alpha-equivalence at top level. -/
def alpha_equivalent (e1 e2 : Exp) : Bool := aeq [] e1 e2

/-- Rebuild an enclosing record with one field replaced; the source's
_replace_field needs record nodes, which the fragment omits, so the field
assignment cases of _do_assignment are not representable here. -/
def _do_assignment (lval : Exp) (new_value : Exp) (e : Exp) : Option Exp :=
  match lval with
  | EVar x => some (subst e [(x, new_value)])
  | _ => none

/-- Return the new value of e after executing op (state_maintenance.mutate).
Statement forms outside the source's case list, unknown call names, and
non-lvalue assignment targets model the source's raised exceptions as none.
Fuel makes the non-structural recursion (sequence re-association, call
desugaring) total; none from exhausted fuel never occurs for the fuel bounds
used in the theorems below. -/
def mutate : Nat → Exp → Stm → Option Exp
  | 0, _, _ => none
  | _ + 1, e, SNoOp => some e
  | _ + 1, e, SAssign lhs rhs => _do_assignment lhs rhs e
  | n + 1, e, SCall target func arg =>
    match func with
    | "add" => mutate n e (SCall target "add_all" (ESingleton arg))
    | "add_all" => mutate n e (SAssign target (EBinOp target .add arg))
    | "remove" => mutate n e (SCall target "remove_all" (ESingleton arg))
    | "remove_all" => mutate n e (SAssign target (EBinOp target .sub arg))
    | _ => none
  | n + 1, e, SIf c s1 s2 => do
    let then_branch ← mutate n e s1
    let else_branch ← mutate n e s2
    pure (if alpha_equivalent then_branch else_branch then then_branch
      else ECond c then_branch else_branch)
  | n + 1, e, SSeq s1 s2 =>
    match s1 with
    | SSeq a b => mutate n e (SSeq a (SSeq b s2))
    | _ => do
      let e2 ← mutate n e s2
      let e2 ← mutate n e2 s1
      pure (match s1 with
        | SDecl x v => subst e2 [(x, v)]
        | _ => e2)
  | _ + 1, e, SDecl _ _ => some e
  | _, _, SForEach _ _ _ => none

/-! Reference semantics.  cozy.evaluation (not part of the sources) gives the
dynamic semantics of expressions and statements; the spec describes bags as
multisets and collection calls as one-occurrence add/remove.  Scalars are
integers and booleans, collections are multisets of integers; evaluation is
partial (none on nodes outside the executable fragment or on dynamic type
mismatches). -/

/-- Runtime values: integers, booleans, and bags of integers. -/
inductive Value where
  | VInt (n : Int)
  | VBool (b : Bool)
  | VBag (b : Multiset Int)
deriving DecidableEq

open Value

/-- Runtime environments map variable names to values. -/
def Env := String → Value

/-- Environment update at one name. -/
def upd (env : Env) (x : String) (v : Value) : Env :=
  fun y => if y = x then v else env y

/-- Binary operator semantics. -/
def eval_bin (v1 : Value) (op : BOp) (v2 : Value) : Option Value :=
  match op, v1, v2 with
  | .add, VInt a, VInt b => some (VInt (a + b))
  | .add, VBag a, VBag b => some (VBag (a + b))
  | .sub, VInt a, VInt b => some (VInt (a - b))
  | .sub, VBag a, VBag b => some (VBag (a - b))
  | .eq, a, b => some (VBool (a = b))
  | .conj, VBool a, VBool b => some (VBool (a && b))
  | .disj, VBool a, VBool b => some (VBool (a || b))
  | .impl, VBool a, VBool b => some (VBool (!a || b))
  | .mem, VInt a, VBag b => some (VBool (a ∈ b))
  | .gt, VInt a, VInt b => some (VBool (b < a))
  | .ge, VInt a, VInt b => some (VBool (b ≤ a))
  | .intersect, VBag a, VBag b => some (VBag (a ∩ b))
  | _, _, _ => none

/-- Expression evaluation.  The state-variable wrapper is semantically
transparent; lambdas, calls, argmin/argmax and the heap nodes are outside the
executable fragment (none). -/
def eval : Exp → Env → Option Value
  | EVar x, env => some (env x)
  | ENum n, _ => some (VInt n)
  | EBool b, _ => some (VBool b)
  | EEmptyList, _ => some (VBag 0)
  | ESingleton e, env =>
    match eval e env with
    | some (VInt n) => some (VBag {n})
    | _ => none
  | EBinOp a op b, env => do
    let v1 ← eval a env
    let v2 ← eval b env
    eval_bin v1 op v2
  | EUnaryOp .uNot e, env =>
    match eval e env with
    | some (VBool b) => some (VBool (!b))
    | _ => none
  | EUnaryOp .uExists e, env =>
    match eval e env with
    | some (VBag b) => some (VBool (b ≠ 0))
    | _ => none
  | EUnaryOp .uLen e, env =>
    match eval e env with
    | some (VBag b) => some (VInt (Multiset.card b))
    | _ => none
  | EUnaryOp .uEmpty e, env =>
    match eval e env with
    | some (VBag b) => some (VBool (b = 0))
    | _ => none
  | EUnaryOp .uThe _, _ => none
  | ECond c t e, env =>
    match eval c env with
    | some (VBool true) => eval t env
    | some (VBool false) => eval e env
    | _ => none
  | EStateVar e, env => eval e env
  | ELambda _ _, _ => none
  | ECall _ _, _ => none
  | EArgMin _ _, _ => none
  | EArgMax _ _, _ => none
  | EMakeMinHeap _ _, _ => none
  | EMakeMaxHeap _ _, _ => none
  | EHeapPeek2 _ _, _ => none

/-- Statement execution: the referee for "directly executing op".  Collection
calls add or remove occurrences on the named bag; declarations bind in the
flat environment; the for-each loop is outside the executable fragment. -/
def exec : Stm → Env → Option Env
  | SNoOp, env => some env
  | SAssign (EVar x) rhs, env => (eval rhs env).map (fun v => upd env x v)
  | SAssign _ _, _ => none
  | SCall (EVar t) func arg, env =>
    match func, env t, eval arg env with
    | "add", VBag b, some (VInt n) => some (upd env t (VBag (b + {n})))
    | "add_all", VBag b, some (VBag c) => some (upd env t (VBag (b + c)))
    | "remove", VBag b, some (VInt n) => some (upd env t (VBag (b - {n})))
    | "remove_all", VBag b, some (VBag c) => some (upd env t (VBag (b - c)))
    | _, _, _ => none
  | SCall _ _ _, _ => none
  | SIf c s1 s2, env =>
    match eval c env with
    | some (VBool true) => exec s1 env
    | some (VBool false) => exec s2 env
    | _ => none
  | SSeq s1 s2, env => do
    let env1 ← exec s1 env
    exec s2 env1
  | SDecl x v, env => (eval v env).map (fun w => upd env x w)
  | SForEach _ _ _, _ => none

/-- An environment satisfies an assumption when it evaluates to true. -/
def sat (env : Env) (a : Exp) : Prop := eval a env = some (VBool true)

/-- A validity oracle is sound when a validated formula is never false: the
contract of the external SMT oracle. -/
def sound_solver (V : Exp → Bool) : Prop :=
  ∀ f env, V f = true → eval f env ≠ some (VBool false)

/-! Contexts and errors. -/

/-- Reasoning context.  cozy Contexts carry the typed free variables and
uninterpreted functions from which a per-context solver is built; the model
keeps exactly what the verified code consults: the context's validity oracle
(solver_for) and its typing information reduced to the bag/set test used by
better_mutate. -/
structure Ctx where
  valid : Exp → Bool
  is_collection : Exp → Bool

/-- Per-context solver (state_maintenance.solver_for); the process-wide
memoization cache is semantically transparent and elided. -/
def solver_for (ctx : Ctx) : Exp → Bool := ctx.valid

/-- Failure signals of the module: the ForkOn control signal, the
NotEfficient inefficiency signal, NotImplementedError / unknown-construct
errors, the dbg wrapper's ValueError, and fuel exhaustion (a modelling
artifact standing for unbounded recursion). -/
inductive Err where
  | forkOn (cond : Exp)
  | notEfficient (e : Exp)
  | notImplemented
  | valueError
  | outOfFuel
deriving Repr

/-! Three-valued logic (state_maintenance.MaybeType). -/

/-- Three-valued truth: True, False, or MAYBE. -/
inductive TriB where
  | yes | no | maybe
deriving DecidableEq, Repr

/-- state_maintenance.definitely. -/
def definitely : TriB → Bool
  | .yes => true
  | _ => false

/-- state_maintenance.possibly. -/
def possibly : TriB → Bool
  | .no => false
  | _ => true

/-- state_maintenance.both. -/
def both (x y : TriB) : TriB :=
  if definitely x && definitely y then .yes
  else if possibly x && possibly y then .maybe
  else .no

/-- state_maintenance.invert. -/
def invert (x : TriB) : TriB :=
  if definitely x then .no
  else if !possibly x then .yes
  else .maybe

/-! Structural classification helpers, translated case for case (cases for
the map / filter / flat-map / distinct nodes that the fragment omits do not
appear). -/

/-- state_maintenance.singleton_or_empty. -/
def singleton_or_empty : Exp → TriB
  | EEmptyList => .yes
  | ESingleton _ => .yes
  | EStateVar e => singleton_or_empty e
  | ECond _ t e =>
    let then_case := singleton_or_empty t
    let else_case := singleton_or_empty e
    if definitely then_case && definitely else_case then .yes
    else if possibly then_case || possibly else_case then .maybe
    else .no
  | _ => .maybe

/-- state_maintenance.is_singleton. -/
def is_singleton : Exp → TriB
  | ESingleton _ => .yes
  | _ => .maybe

/-- state_maintenance.is_empty. -/
def is_empty : Exp → TriB
  | EEmptyList => .yes
  | _ => .maybe

/-- state_maintenance.are_unique. -/
def are_unique : Exp → TriB
  | EEmptyList => .yes
  | ESingleton _ => .yes
  | _ => .maybe

/-- state_maintenance.equal; the record/record case needs record nodes, which
the fragment omits. -/
def equal (e1 e2 : Exp) : Exp := eEq e1 e2

/-- Conditional-expression smart constructor, modelled from the spec:
cozy.simplification.simplify_cond (not part of the sources) builds a runtime
conditional, collapsing constant guards and equal branches (the spec makes
alpha-equivalence the equality notion throughout). -/
def condE (c t e : Exp) : Exp :=
  match c with
  | EBool true => t
  | EBool false => e
  | _ => if alpha_equivalent t e then t else ECond c t e

/-- state_maintenance.exists (renamed: exists is reserved). -/
def eExists (e : Exp) : Exp :=
  if definitely (is_empty e) then eF
  else if definitely (is_singleton e) then eT
  else match e with
  | EBinOp a .add b => eAny [eExists a, eExists b]
  | ECond c t e => condE c (eExists t) (eExists e)
  | _ => EUnaryOp .uExists e

/-- state_maintenance.len_of. -/
def len_of (e : Exp) : Exp :=
  if definitely (singleton_or_empty e) then condE (eExists e) (ENum 1) (ENum 0)
  else match e with
  | ECond c t e => condE c (len_of t) (len_of e)
  | _ => EUnaryOp .uLen e

/-- state_maintenance.nonnegative. -/
def nonnegative : Exp → TriB
  | EUnaryOp .uLen _ => .yes
  | EBinOp a .add b => both (nonnegative a) (nonnegative b)
  | _ => .maybe

/-- state_maintenance.ge. -/
def geE (x y : Exp) : Exp :=
  match x, y with
  | ECond c t e, y => condE c (geE t y) (geE e y)
  | x, ECond c t e => condE c (geE x t) (geE x e)
  | x, y =>
    if definitely (nonnegative x) &&
        (match y with | ENum 0 => true | _ => false) then eT
    else match x, y with
    | ENum 0, EUnaryOp .uLen bag => eNot (eExists bag)
    | _, _ => EBinOp x .ge y
termination_by esize x + esize y
decreasing_by all_goals simp [esize] <;> omega

/-- state_maintenance.bag_union. -/
def bag_union (e1 e2 : Exp) : Exp :=
  match e1, e2 with
  | EEmptyList, _ => e2
  | _, EEmptyList => e1
  | _, _ => EBinOp e1 .add e2

/-- The fork control signal (state_maintenance.fork): structured conditions
are decomposed into nested forks; an atomic condition is sent to the
context's solver in each direction, and if neither direction is valid the
undecided condition is raised (Err.forkOn).  Branch arguments are evaluated
eagerly by the caller, as in Python. -/
def fork {α : Type} (ctx : Ctx) (assumptions : Exp) (cond : Exp)
    (then_branch else_branch : α) : Except Err α :=
  match cond with
  | EBinOp c1 .conj c2 => do
    let inner ← fork ctx assumptions c2 then_branch else_branch
    fork ctx assumptions c1 inner else_branch
  | EBinOp c1 .disj c2 => do
    let inner ← fork ctx assumptions c2 then_branch else_branch
    fork ctx assumptions c1 then_branch inner
  | EUnaryOp .uNot c => fork ctx assumptions c else_branch then_branch
  | ECond c ct ce => do
    let t' ← fork ctx assumptions ct then_branch else_branch
    let e' ← fork ctx assumptions ce then_branch else_branch
    fork ctx assumptions c t' e'
  | c =>
    if solver_for ctx (eImplies assumptions c) then pure then_branch
    else if solver_for ctx (eImplies assumptions (eNot c)) then pure else_branch
    else .error (.forkOn c)

/-- state_maintenance.resolve_forks: run func under the current assumptions;
on a ForkOn signal for condition c, splice the recursive resolutions under
c and under not c into a runtime conditional on c.  Only ForkOn is caught;
other errors propagate.  Fuel bounds the recursion, which the source leaves
unbounded. -/
def resolve_forks : Nat → Exp → (Exp → Except Err Exp) → Except Err Exp
  | 0, _, _ => .error .outOfFuel
  | fuel + 1, assumptions, func =>
    match func assumptions with
    | .ok r => .ok r
    | .error (.forkOn branch_cond) =>
      match resolve_forks fuel (eAll [assumptions, branch_cond]) func with
      | .error err => .error err
      | .ok t =>
        match resolve_forks fuel (eAll [assumptions, eNot branch_cond]) func with
        | .error err => .error err
        | .ok e => .ok (condE branch_cond t e)
    | .error err => .error err

mutual

/-- state_maintenance.element_of (the filter case needs the omitted filter
node). -/
def element_of : Exp → Exp → TriB
  | _, EEmptyList => .no
  | EUnaryOp .uThe xe, xs => both (subset_of xe xs) (invert (is_empty xe))
  | _, _ => .maybe

/-- state_maintenance.subset_of (the filter and map cases need omitted
nodes). -/
def subset_of : Exp → Exp → TriB
  | xs, ys =>
    if alpha_equivalent xs ys then .yes
    else match xs with
    | EEmptyList => .yes
    | ECond _ t e =>
      let s1 := subset_of t ys
      let s2 := subset_of e ys
      if definitely s1 && definitely s2 then .yes
      else if possibly s1 && possibly s2 then .maybe
      else .no
    | ESingleton x => element_of x ys
    | _ => .maybe

end

/-- state_maintenance.bag_contains (the filter case needs the omitted filter
node). -/
def bag_contains (bag x : Exp) : Exp :=
  if definitely (element_of x bag) then eT
  else match bag with
  | ESingleton b => equal b x
  | _ => eIn x bag

/-- The last two cases of bag_subtract's if chain (the singleton/singleton
fork and the default symbolic difference), hoisted to a named function so
the fall-through sharing is explicit. -/
def bag_subtract_step9 (ctx : Ctx) (assumptions e1 e2 : Exp) :
    Except Err Exp :=
  match e1, e2 with
  | ESingleton x1, ESingleton x2 =>
    fork ctx assumptions (equal x1 x2) EEmptyList (ESingleton x1)
  | _, _ => pure (EBinOp e1 .sub e2)

/-- bag_subtract's guarded case for a right argument of the shape
a − ⟨y⟩ with a alpha-equal to the left argument, falling through to the
final cases when the guard fails. -/
def bag_subtract_step8 (ctx : Ctx) (assumptions e1 e2 : Exp) :
    Except Err Exp :=
  match e2 with
  | EBinOp a .sub (ESingleton y) =>
    if alpha_equivalent a e1 then
      fork ctx assumptions (bag_contains e1 y) (ESingleton y) EEmptyList
    else bag_subtract_step9 ctx assumptions e1 e2
  | _ => bag_subtract_step9 ctx assumptions e1 e2

/-- state_maintenance.bag_subtract, in source case order; the guarded cases
fall through exactly as the source's if chain does.  Fueled because the
union case recurses on the result of a recursive call. -/
def bag_subtract : Nat → Ctx → Exp → Exp → Exp → Except Err Exp
  | 0, _, _, _, _ => .error .outOfFuel
  | fuel + 1, ctx, assumptions, e1, e2 =>
    match e1, e2 with
    | EEmptyList, _ => pure e1
    | _, EEmptyList => pure e1
    | _, _ =>
      if alpha_equivalent e1 e2 then pure EEmptyList
      else match e2 with
      | ECond c t el => do
        let a ← bag_subtract fuel ctx assumptions e1 t
        let b ← bag_subtract fuel ctx assumptions e1 el
        fork ctx assumptions c a b
      | _ =>
        match e1 with
        | ECond c t el => do
          let a ← bag_subtract fuel ctx assumptions t e2
          let b ← bag_subtract fuel ctx assumptions el e2
          fork ctx assumptions c a b
        | _ =>
          match e2 with
          | EBinOp a .add b => do
            let r ← bag_subtract fuel ctx assumptions e1 a
            bag_subtract fuel ctx assumptions r b
          | _ =>
            match e1 with
            | EBinOp a .sub _ =>
              if alpha_equivalent a e2 then pure EEmptyList
              else bag_subtract_step8 ctx assumptions e1 e2
            | _ => bag_subtract_step8 ctx assumptions e1 e2

/-- state_maintenance.bag_intersection, in source case order (the
commented-out filter cases are absent in the source as well); EIntersect is
the intersect binary operator. -/
def bag_intersection : Nat → Ctx → Exp → Exp → Exp → Except Err Exp
  | 0, _, _, _, _ => .error .outOfFuel
  | fuel + 1, ctx, assumptions, e1, e2 =>
    match e1, e2 with
    | EEmptyList, _ => pure e1
    | _, EEmptyList => pure e2
    | ECond c t el, _ => do
      let a ← bag_intersection fuel ctx assumptions t e2
      let b ← bag_intersection fuel ctx assumptions el e2
      fork ctx assumptions c a b
    | _, ECond c t el => do
      let a ← bag_intersection fuel ctx assumptions e1 t
      let b ← bag_intersection fuel ctx assumptions e1 el
      fork ctx assumptions c a b
    | ESingleton x1, ESingleton x2 =>
      fork ctx assumptions (equal x1 x2) e1 EEmptyList
    | _, _ => pure (EBinOp e1 .intersect e2)

/-- state_maintenance.to_heap for argmin/argmax expressions, modelled from
the spec: cozy.structures.heaps (not part of the sources) turns an
argmin/argmax into the corresponding min- or max-heap of the collection
under the comparator. -/
def to_heap : Exp → Option Exp
  | EArgMin e f => some (EMakeMinHeap e f)
  | EArgMax e f => some (EMakeMaxHeap e f)
  | _ => none

/-- The generic two-sided subtraction fallback of bag_delta's variable case
(new − old, old − new), hoisted to a named function. -/
def bag_delta_var_fallback (n : Nat) (ctx : Ctx) (assumptions new_e : Exp)
    (x : String) : Except Err (Exp × Exp) := do
  let r1 ← bag_subtract n ctx assumptions new_e (EVar x)
  let r2 ← bag_subtract n ctx assumptions (EVar x) new_e
  pure (r1, r2)

mutual

/-- state_maintenance.better_mutate: incrementally compute the new runtime
value of the cached expression EStateVar e after op.  The argument is the
wrapped expression e (the source receives the EStateVar node and immediately
unwraps it; returns of the original node appear as EStateVar e).  The
bag/set type test dispatches through the context's typing information; the
argmin/argmax case is the source's single block, duplicated for the two
node shapes it rebuilds with type(e). -/
def better_mutate : Nat → Ctx → Exp → Stm → Exp → Except Err Exp
  | 0, _, _, _, _ => .error .outOfFuel
  | n + 1, ctx, e, op, assumptions =>
    match mutate n e op with
    | none => .error .notImplemented
    | some new_e0 =>
    if alpha_equivalent e new_e0 then pure (EStateVar e)
    else if ctx.is_collection e then do
      let (add, remove) ← checked_bag_delta n ctx e op assumptions
      let base ← bag_subtract n ctx assumptions e remove
      pure (bag_union base add)
    else match e with
    | EUnaryOp .uExists ee => do
      let (add, remove) ← checked_bag_delta n ctx ee op assumptions
      pure (EBinOp (EBinOp (EStateVar (len_of ee)) .add (len_of add)) .gt
        (len_of remove))
    | EUnaryOp .uNot ee => do
      let new_val ← better_mutate n ctx ee op assumptions
      pure (eNot new_val)
    | ESingleton ee => do
      let v ← better_mutate n ctx ee op eT
      pure (ESingleton v)
    | EBinOp a bop b => do
      let va ← better_mutate n ctx a op assumptions
      let vb ← better_mutate n ctx b op assumptions
      pure (EBinOp va bop vb)
    | ECall f args => do
      let vs ← better_mutate_args n ctx args op assumptions
      pure (ECall f vs)
    | ECond c t el => do
      let then_branch ← better_mutate n ctx t op assumptions
      let else_branch ← better_mutate n ctx el op assumptions
      let bf ← became_bool n ctx c op false assumptions
      let bt ← became_bool n ctx c op true assumptions
      pure (condE c (condE bf else_branch then_branch)
        (condE bt then_branch else_branch))
    | EArgMin xs f =>
      match mutate n f op with
      | none => .error .notImplemented
      | some f' =>
        if alpha_equivalent f f' then do
          let (to_add, to_del) ←
            checked_bag_delta n ctx (EStateVar xs) op assumptions
          let esv := EStateVar (EArgMin xs f)
          let second_min := EHeapPeek2 (EStateVar (EMakeMinHeap xs f))
            (EStateVar (EUnaryOp .uLen xs))
          let min_after_del ←
            if (match to_del with | EEmptyList => true | _ => false) ||
                ctx.valid (eImplies assumptions (eEmpty to_del)) then
              pure esv
            else if ctx.valid (eImplies assumptions
                (eEq (EUnaryOp .uLen to_del) (ENum 1))) then
              pure (ECond (eEq (EUnaryOp .uThe to_del) esv) second_min esv)
            else
              .error (.notEfficient (EArgMin xs f))
          if definitely (is_empty to_add) then pure min_after_del
          else pure (EArgMin
            (bag_union (ESingleton min_after_del) to_add) f)
        else .error (.notEfficient (EArgMin xs f))
    | EArgMax xs f =>
      match mutate n f op with
      | none => .error .notImplemented
      | some f' =>
        if alpha_equivalent f f' then do
          let (to_add, to_del) ←
            checked_bag_delta n ctx (EStateVar xs) op assumptions
          let esv := EStateVar (EArgMax xs f)
          let second_min := EHeapPeek2 (EStateVar (EMakeMaxHeap xs f))
            (EStateVar (EUnaryOp .uLen xs))
          let min_after_del ←
            if (match to_del with | EEmptyList => true | _ => false) ||
                ctx.valid (eImplies assumptions (eEmpty to_del)) then
              pure esv
            else if ctx.valid (eImplies assumptions
                (eEq (EUnaryOp .uLen to_del) (ENum 1))) then
              pure (ECond (eEq (EUnaryOp .uThe to_del) esv) second_min esv)
            else
              .error (.notEfficient (EArgMax xs f))
          if definitely (is_empty to_add) then pure min_after_del
          else pure (EArgMax
            (bag_union (ESingleton min_after_del) to_add) f)
        else .error (.notEfficient (EArgMax xs f))
    | _ => .error .notImplemented

/-- The pointwise better_mutate over a call's argument list (the source's
generator expression in the ECall case). -/
def better_mutate_args : Nat → Ctx → List Exp → Stm → Exp →
    Except Err (List Exp)
  | 0, _, _, _, _ => .error .outOfFuel
  | _ + 1, _, [], _, _ => pure []
  | n + 1, ctx, a :: args, op, assumptions => do
    let v ← better_mutate n ctx a op assumptions
    let vs ← better_mutate_args n ctx args op assumptions
    pure (v :: vs)

/-- state_maintenance.checked_bag_delta: returns bag_delta's pair (the
remainder of the source function is unreachable debug code). -/
def checked_bag_delta : Nat → Ctx → Exp → Stm → Exp → Except Err (Exp × Exp)
  | 0, _, _, _, _ => .error .outOfFuel
  | n + 1, ctx, e, s, assumptions => bag_delta n ctx e s assumptions

/-- state_maintenance.bag_delta as called (the dbg decorator): runs the case
analysis and raises ValueError when the removed part's size exceeds 100 (the
decorator's commented-out semantic checks are absent in the source too). -/
def bag_delta : Nat → Ctx → Exp → Stm → Exp → Except Err (Exp × Exp)
  | 0, _, _, _, _ => .error .outOfFuel
  | n + 1, ctx, e, s, assumptions => do
    let r ← bag_delta_cases n ctx e s assumptions
    if esize r.2 > 100 then .error .valueError else pure r

/-- The undecorated state_maintenance.bag_delta case analysis, in source
order, restricted to the embedded fragment (the map / filter / flat-map /
distinct cases rewrite into or traverse nodes the fragment omits).
Expressions with no matching case raise NotImplementedError. -/
def bag_delta_cases : Nat → Ctx → Exp → Stm → Exp → Except Err (Exp × Exp)
  | 0, _, _, _, _ => .error .outOfFuel
  | n + 1, ctx, e, s, assumptions =>
    match e with
    | EStateVar ee => checked_bag_delta n ctx ee s assumptions
    | EBinOp a .add b => do
      let (n1, d1) ← checked_bag_delta n ctx a s assumptions
      let (n2, d2) ← checked_bag_delta n ctx b s assumptions
      pure (bag_union n1 n2, bag_union d1 d2)
    | EBinOp a .sub b => do
      let (n1, d1) ← checked_bag_delta n ctx a s assumptions
      let (n2, d2) ← checked_bag_delta n ctx b s assumptions
      pure (bag_union n1 d2, bag_union d1 n2)
    | ESingleton x => do
      let new_e ← better_mutate n ctx x s assumptions
      fork ctx assumptions (eEq x new_e)
        (EEmptyList, EEmptyList)
        (ESingleton new_e, ESingleton x)
    | EEmptyList => pure (EEmptyList, EEmptyList)
    | ECond c t el =>
      match mutate n c s with
      | none => .error .notImplemented
      | some new_cond =>
        if alpha_equivalent new_cond c then do
          let (n1, d1) ← checked_bag_delta n ctx t s assumptions
          let (n2, d2) ← checked_bag_delta n ctx el s assumptions
          pure (condE c n1 n2, condE c d1 d2)
        else do
          let bf1 ← became_bool n ctx c s false assumptions
          let sub1 ← bag_subtract n ctx assumptions el t
          let case1 := condE bf1 sub1 EEmptyList
          let bt2 ← became_bool n ctx c s true assumptions
          let sub2 ← bag_subtract n ctx assumptions t el
          let case2 := condE bt2 sub2 EEmptyList
          let bf3 ← became_bool n ctx c s false assumptions
          let sub3 ← bag_subtract n ctx assumptions t el
          let case3 := condE bf3 sub3 EEmptyList
          let bt4 ← became_bool n ctx c s true assumptions
          let sub4 ← bag_subtract n ctx assumptions el t
          let case4 := condE bt4 sub4 EEmptyList
          pure (condE c case1 case2, condE c case3 case4)
    | EVar x =>
      match mutate n (EVar x) s with
      | none => .error .notImplemented
      | some new_e =>
        match new_e with
        | EBinOp (EBinOp a .sub d) .add nn =>
          if alpha_equivalent a (EVar x) then pure (nn, d)
          else if alpha_equivalent (EBinOp a .sub d) (EVar x) then
            pure (nn, EEmptyList)
          else bag_delta_var_fallback n ctx assumptions new_e x
        | EBinOp a .add nn =>
          if alpha_equivalent a (EVar x) then pure (nn, EEmptyList)
          else bag_delta_var_fallback n ctx assumptions new_e x
        | _ => bag_delta_var_fallback n ctx assumptions new_e x
    | _ => .error .notImplemented

/-- state_maintenance.became_bool: assuming boolean e evaluates to (not val),
does it evaluate to val after executing s?  The conjunction case with
val = true is explicitly unimplemented in the source (unconditional raise).
The duplicate calls of the disjunction case are shared (the function is
pure). -/
def became_bool : Nat → Ctx → Exp → Stm → Bool → Exp → Except Err Exp
  | 0, _, _, _, _, _ => .error .outOfFuel
  | n + 1, ctx, e, s, val, assumptions =>
    match mutate n e s with
    | none => .error .notImplemented
    | some new_e0 =>
    if alpha_equivalent e new_e0 then pure eF
    else match e with
    | EUnaryOp .uNot ee => became_bool n ctx ee s (!val) assumptions
    | EUnaryOp .uExists ee => do
      let (added, removed) ← bag_delta n ctx ee s assumptions
      if val then pure (eExists added)
      else pure (geE (len_of removed) (eSum [len_of added, len_of ee]))
    | EBinOp a .conj b =>
      if val then .error .notImplemented
      else do
        let x ← became_bool n ctx a s val assumptions
        let y ← became_bool n ctx b s val assumptions
        pure (eAny [x, y])
    | EBinOp a .disj b =>
      if val then do
        let x ← became_bool n ctx a s val assumptions
        let y ← became_bool n ctx b s val assumptions
        pure (eAny [x, y])
      else do
        let x ← became_bool n ctx a s val assumptions
        let y ← became_bool n ctx b s val assumptions
        pure (condE a (condE b (eAll [x, y]) x) y)
    | _ => .error .notImplemented

end

/-- state_maintenance.became_true. -/
def became_true (n : Nat) (ctx : Ctx) (e : Exp) (s : Stm) (assumptions : Exp) :
    Except Err Exp :=
  became_bool n ctx e s true assumptions

/-- state_maintenance.became_false. -/
def became_false (n : Nat) (ctx : Ctx) (e : Exp) (s : Stm) (assumptions : Exp) :
    Except Err Exp :=
  became_bool n ctx e s false assumptions

/-- state_maintenance.changed: did the expression's value change?  The two
structural shortcuts recurse; the general case compares with better_mutate. -/
def changed : Nat → Ctx → Exp → Stm → Exp → Except Err Exp
  | 0, _, _, _, _ => .error .outOfFuel
  | n + 1, ctx, e, s, assumptions =>
    match mutate n e s with
    | none => .error .notImplemented
    | some new_e0 =>
    if alpha_equivalent e new_e0 then pure eF
    else match e with
    | EUnaryOp .uNot ee => changed n ctx ee s assumptions
    | ESingleton ee => changed n ctx ee s assumptions
    | _ => do
      let m ← better_mutate n ctx e s assumptions
      pure (eNot (eEq e m))

/-- state_maintenance.real_better_mutate: better_mutate under the fork
resolution driver. -/
def real_better_mutate (n : Nat) (ctx : Ctx) (e : Exp) (op : Stm)
    (assumptions : Exp) : Except Err Exp :=
  resolve_forks n assumptions
    (fun a => better_mutate n ctx e op a)

/-! Update-statement synthesis (state_maintenance.sketch_update). -/

/-- Type fragment relevant to sketch_update's dispatch (tuple, record and map
types, whose branches recurse structurally on the type, are outside the
fragment). -/
inductive Ty where
  | TInt
  | TBool
  | TBag (t : Ty)
  | TSet (t : Ty)
  | TNative (name : String)
deriving DecidableEq, Repr

/-- cozy.typecheck.is_numeric on the type fragment. -/
def is_numeric : Ty → Bool
  | .TInt => true
  | _ => false

mutual

/-- cozy.syntax_tools.strip_EStateVar (not part of the sources): remove every
state-variable wrapper. -/
def strip_EStateVar : Exp → Exp
  | EVar x => EVar x
  | ENum n => ENum n
  | EBool b => EBool b
  | EEmptyList => EEmptyList
  | ESingleton e => ESingleton (strip_EStateVar e)
  | EBinOp a op b => EBinOp (strip_EStateVar a) op (strip_EStateVar b)
  | EUnaryOp op e => EUnaryOp op (strip_EStateVar e)
  | ECond c t e =>
    ECond (strip_EStateVar c) (strip_EStateVar t) (strip_EStateVar e)
  | EStateVar e => strip_EStateVar e
  | ELambda a b => ELambda a (strip_EStateVar b)
  | ECall f args => ECall f (strip_EStateVar_list args)
  | EArgMin e f => EArgMin (strip_EStateVar e) (strip_EStateVar f)
  | EArgMax e f => EArgMax (strip_EStateVar e) (strip_EStateVar f)
  | EMakeMinHeap e f => EMakeMinHeap (strip_EStateVar e) (strip_EStateVar f)
  | EMakeMaxHeap e f => EMakeMaxHeap (strip_EStateVar e) (strip_EStateVar f)
  | EHeapPeek2 h n => EHeapPeek2 (strip_EStateVar h) (strip_EStateVar n)

/-- strip_EStateVar over a list. -/
def strip_EStateVar_list : List Exp → List Exp
  | [] => []
  | e :: es => strip_EStateVar e :: strip_EStateVar_list es

end

/-- First-occurrence duplicate removal (the order cozy's free_vars
OrderedSet produces). -/
def nub (l : List String) : List String :=
  l.foldl (fun acc a => if acc.contains a then acc else acc ++ [a]) []

/-- A synthesis subgoal (cozy syntax.Query; the visibility tag is elided and
argument types are erased along with all other types). -/
structure Query where
  name : String
  args : List String
  assumptions : List Exp
  ret : Exp
  docstring : String
deriving Repr

/-- The make_subgoal closure of sketch_update: skip when the skip-stateless
option is set and the expression does not read abstract state; otherwise
build a fresh query over the free variables that are not abstract state and
return the call to it.  The caller supplies the fresh name (cozy's global
fresh_name counter is modelled by a caller-threaded counter). -/
def make_subgoal (skip_stateless : Bool) (ctx : List String)
    (assumptions : List Exp) (qname : String) (e : Exp) (a : List Exp)
    (docstring : String) : Exp × Option Query :=
  if skip_stateless && !((free_vars e).any (fun v => ctx.contains v)) then
    (e, none)
  else
    let query_vars :=
      (nub (free_vars_list (assumptions ++ a) ++ free_vars e)).filter
        (fun v => !ctx.contains v)
    (ECall qname (query_vars.map EVar),
     some ⟨qname, query_vars, assumptions ++ a, e, docstring⟩)

/-- cozy syntax.seq (not part of the sources): sequence a statement list,
dropping no-ops. -/
def seq_of : List Stm → Stm
  | [] => SNoOp
  | [s] => s
  | s :: rest => SSeq s (seq_of rest)

/-- Sequence with no-op filtering. -/
def seq_stm (l : List Stm) : Stm :=
  seq_of (l.filter (fun s => match s with | SNoOp => false | _ => true))

/-- state_maintenance.sketch_update on the type fragment: emit a no-op when
old and new values are provably equal under assumptions and invariants;
for bags and sets synthesize the two delta subgoals and the bulk
remove-then-add pair; for numbers with the update-numbers-with-deltas option
a delta increment; otherwise assign a freshly synthesized new value.  V is
the global validity oracle (cozy.solver.valid); fresh_n the name-supply
counter; docstrings are fixed strings (the source interpolates the printed
lvalue). -/
def sketch_update (V : Exp → Bool) (skip_stateless update_numbers : Bool)
    (fresh_n : Nat) (lval : Exp) (lval_ty : Ty) (old_value new_value0 : Exp)
    (ctx : List String) (assumptions invariants : List Exp) :
    Stm × List Query :=
  if V (eImplies (eAll (assumptions ++ invariants))
      (eEq old_value new_value0)) then
    (SNoOp, [])
  else
    let new_value := strip_EStateVar new_value0
    match lval_ty with
    | .TBag _ | .TSet _ =>
      let (to_add, q1) := make_subgoal skip_stateless ctx assumptions
        ("query" ++ toString fresh_n) (EBinOp new_value .sub old_value) []
        "additions"
      let (to_del, q2) := make_subgoal skip_stateless ctx assumptions
        ("query" ++ toString (fresh_n + 1)) (EBinOp old_value .sub new_value)
        [] "deletions"
      let v := "_var" ++ toString (fresh_n + 2)
      (seq_stm [SForEach v to_del (SCall lval "remove" (EVar v)),
                SForEach v to_add (SCall lval "add" (EVar v))],
       q1.toList ++ q2.toList)
    | t =>
      if is_numeric t && update_numbers then
        let (change, q) := make_subgoal skip_stateless ctx assumptions
          ("query" ++ toString fresh_n) (EBinOp new_value .sub old_value) []
          "delta"
        (SAssign lval (EBinOp lval .add change), q.toList)
      else
        let (new_val, q) := make_subgoal skip_stateless ctx assumptions
          ("query" ++ toString fresh_n) new_value [] "new value"
        (SAssign lval new_val, q.toList)

/-! Basic lemmas about the embedding. -/

/-- A context whose oracle validates nothing; vacuously sound. -/
def ctx_trivial : Ctx := ⟨fun _ => false, fun _ => false⟩

/-- The all-false oracle is sound. -/
theorem sound_solver_trivial : sound_solver ctx_trivial.valid := by
  intro f env h
  simp [ctx_trivial] at h

/-- Variable comparison under an identity pairing is reflexive. -/
theorem aeq_var_refl (m : List (String × String))
    (hm : ∀ p ∈ m, p.1 = p.2) (x : String) : aeq_var m x x = true := by
  induction m with
  | nil => simp [aeq_var]
  | cons p rest ih =>
    obtain ⟨a, b⟩ := p
    have hab : a = b := hm (a, b) (by simp)
    subst hab
    by_cases hax : a = x
    · subst hax; simp [aeq_var]
    · have : (a == x) = false := by simp [hax]
      simp [aeq_var, this]
      exact ih (fun q hq => hm q (by simp [hq]))


mutual

/-- Alpha-equivalence is reflexive under an identity pairing. -/
theorem aeq_refl (m : List (String × String)) (hm : ∀ p ∈ m, p.1 = p.2) :
    ∀ e, aeq m e e = true
  | EVar x => by simp [aeq, aeq_var_refl m hm]
  | ENum _ => by simp [aeq]
  | EBool _ => by simp [aeq]
  | EEmptyList => by simp [aeq]
  | ESingleton e => by simp [aeq, aeq_refl m hm e]
  | EBinOp a op b => by simp [aeq, aeq_refl m hm a, aeq_refl m hm b]
  | EUnaryOp op e => by simp [aeq, aeq_refl m hm e]
  | ECond c t e => by
    simp [aeq, aeq_refl m hm c, aeq_refl m hm t, aeq_refl m hm e]
  | EStateVar e => by simp [aeq, aeq_refl m hm e]
  | ELambda a b => by
    have hm' : ∀ p ∈ (a, a) :: m, p.1 = p.2 := by
      intro p hp
      rcases List.mem_cons.mp hp with h | h
      · subst h; rfl
      · exact hm p h
    simp [aeq, aeq_refl ((a, a) :: m) hm' b]
  | ECall f args => by simp [aeq, aeq_list_refl m hm args]
  | EArgMin e f => by simp [aeq, aeq_refl m hm e, aeq_refl m hm f]
  | EArgMax e f => by simp [aeq, aeq_refl m hm e, aeq_refl m hm f]
  | EMakeMinHeap e f => by simp [aeq, aeq_refl m hm e, aeq_refl m hm f]
  | EMakeMaxHeap e f => by simp [aeq, aeq_refl m hm e, aeq_refl m hm f]
  | EHeapPeek2 h n => by simp [aeq, aeq_refl m hm h, aeq_refl m hm n]

/-- List alpha-equivalence is reflexive under an identity pairing. -/
theorem aeq_list_refl (m : List (String × String))
    (hm : ∀ p ∈ m, p.1 = p.2) : ∀ l, aeq_list m l l = true
  | [] => by simp [aeq_list]
  | e :: es => by simp [aeq_list, aeq_refl m hm e, aeq_list_refl m hm es]

end

/-- Top-level alpha-equivalence is reflexive. -/
theorem alpha_equivalent_refl (e : Exp) : alpha_equivalent e e = true :=
  aeq_refl [] (by simp) e

/-- The conditional smart constructor collapses equal branches. -/
theorem condE_self (c x : Exp) : condE c x x = x := by
  unfold condE
  cases c <;> simp [alpha_equivalent_refl]
  case EBool b => cases b <;> simp

/-- Inversion for a successful Except bind. -/
theorem except_bind_ok {ε α β : Type} {x : Except ε α} {f : α → Except ε β}
    {b : β} (h : x.bind f = .ok b) : ∃ a, x = .ok a ∧ f a = .ok b := by
  cases x with
  | ok a => exact ⟨a, rfl, h⟩
  | error e => simp [Except.bind] at h

/-- Bind on a successful Except computation. -/
@[simp] theorem ok_bind {ε α β : Type} (a : α) (f : α → Except ε β) :
    (Except.ok a >>= f) = f a := rfl

/-- Bind on a failed Except computation. -/
@[simp] theorem error_bind {ε α β : Type} (e : ε) (f : α → Except ε β) :
    ((Except.error e : Except ε α) >>= f) = .error e := rfl

/-! Claim theorems. -/

/-- C8: mutate on a collection call delegates exactly as the spec's
desugaring describes: add and remove go through add_all and remove_all of a
one-element collection, and add_all and remove_all become assignments of a
bag union and a bag difference to the target (the fuel index steps once per
delegation, mirroring the source's recursive call). -/
theorem mutate_collection_call_desugar :
    ∀ (n : Nat) (e target arg : Exp),
      mutate (n + 1) e (SCall target "add" arg) =
        mutate n e (SCall target "add_all" (ESingleton arg)) ∧
      mutate (n + 1) e (SCall target "remove" arg) =
        mutate n e (SCall target "remove_all" (ESingleton arg)) ∧
      mutate (n + 1) e (SCall target "add_all" arg) =
        mutate n e (SAssign target (EBinOp target .add arg)) ∧
      mutate (n + 1) e (SCall target "remove_all" arg) =
        mutate n e (SAssign target (EBinOp target .sub arg)) := by
  intro n e target arg
  refine ⟨rfl, rfl, rfl, rfl⟩

/-- C10: when the wrapped expression is alpha-equivalent to its mutation
under op, better_mutate returns its argument (the state-variable wrapper of
the cached expression) unchanged, computing no delta. -/
theorem better_mutate_unchanged_returns_argument :
    ∀ (n : Nat) (ctx : Ctx) (e : Exp) (op : Stm) (assumptions m : Exp),
      mutate n e op = some m → alpha_equivalent e m = true →
      better_mutate (n + 1) ctx e op assumptions = .ok (EStateVar e) := by
  intro n ctx e op assumptions m hm ha
  simp [better_mutate, hm, ha, pure, Except.pure]

/-- Witness for C10 at a concrete input. -/
theorem better_mutate_unchanged_returns_argument_witness :
    better_mutate 2 ctx_trivial (EVar "xs") SNoOp eT = .ok (EStateVar (EVar "xs")) :=
  better_mutate_unchanged_returns_argument 1 ctx_trivial (EVar "xs") SNoOp eT
    (EVar "xs") rfl rfl

/-- C6: resolve_forks never propagates a ForkOn signal to its caller, and an
undecided condition raised by the function is recovered by splicing the two
recursive resolutions into a runtime conditional on it. -/
theorem resolve_forks_no_fork_escape :
    (∀ (fuel : Nat) (assumptions : Exp) (func : Exp → Except Err Exp)
       (c : Exp), resolve_forks fuel assumptions func ≠ .error (.forkOn c)) ∧
    (∀ (fuel : Nat) (assumptions : Exp) (func : Exp → Except Err Exp)
       (c : Exp), func assumptions = .error (.forkOn c) →
       resolve_forks (fuel + 1) assumptions func =
         (resolve_forks fuel (eAll [assumptions, c]) func).bind (fun t =>
           (resolve_forks fuel (eAll [assumptions, eNot c]) func).bind (fun e =>
             pure (condE c t e)))) := by
  constructor
  · intro fuel
    induction fuel with
    | zero => intro assumptions func c; simp [resolve_forks]
    | succ n ih =>
      intro assumptions func c
      simp only [resolve_forks]
      cases hf : func assumptions with
      | ok r => simp
      | error err =>
        cases err with
        | forkOn c' =>
          cases h1 : resolve_forks n (eAll [assumptions, c']) func with
          | error e1 =>
            simp only [h1]
            intro hc
            injection hc with h'
            exact ih (eAll [assumptions, c']) func c (by rw [h1, h'])
          | ok t =>
            cases h2 : resolve_forks n (eAll [assumptions, eNot c']) func with
            | error e2 =>
              simp only [h1, h2]
              intro hc
              injection hc with h'
              exact ih (eAll [assumptions, eNot c']) func c (by rw [h2, h'])
            | ok e => simp [h1, h2]
        | notEfficient e => simp
        | notImplemented => simp
        | valueError => simp
        | outOfFuel => simp
  · intro fuel assumptions func c hf
    simp only [resolve_forks, hf]
    cases h1 : resolve_forks fuel (eAll [assumptions, c]) func with
    | error e1 => simp [h1, Except.bind]
    | ok t =>
      cases h2 : resolve_forks fuel (eAll [assumptions, eNot c]) func with
      | error e2 => simp [h1, h2, Except.bind]
      | ok e => simp [h1, h2, Except.bind, pure, Except.pure]

/-- Witness for C6's hypotheses at a concrete input: a function that raises
ForkOn once is spliced into a conditional. -/
theorem resolve_forks_no_fork_escape_witness :
    resolve_forks 2 eT
      (fun a => match a with
        | EBool true => .error (.forkOn (EVar "p"))
        | _ => .ok (EVar "r")) =
      ((resolve_forks 1 (eAll [eT, EVar "p"])
          (fun a => match a with
            | EBool true => .error (.forkOn (EVar "p"))
            | _ => .ok (EVar "r"))).bind (fun t =>
        (resolve_forks 1 (eAll [eT, eNot (EVar "p")])
          (fun a => match a with
            | EBool true => .error (.forkOn (EVar "p"))
            | _ => .ok (EVar "r"))).bind (fun e =>
          pure (condE (EVar "p") t e)))) :=
  resolve_forks_no_fork_escape.2 1 eT
    (fun a => match a with
      | EBool true => .error (.forkOn (EVar "p"))
      | _ => .ok (EVar "r")) (EVar "p") rfl

/-- A condition is atomic when it is none of the structured forms fork
decomposes (conjunction, disjunction, negation, conditional). -/
def atomic_cond : Exp → Bool
  | EBinOp _ .conj _ => false
  | EBinOp _ .disj _ => false
  | EUnaryOp .uNot _ => false
  | ECond _ _ _ => false
  | _ => true

/-- C5: fork on an atomic condition returns the then-branch when the oracle
validates assumptions imply the condition, the else-branch when it validates
the negation, and otherwise raises ForkOn carrying exactly the undecided
condition; structured conditions are decomposed into nested forks first. -/
theorem fork_spec :
    (∀ (α : Type) (ctx : Ctx) (A c : Exp) (t e : α), atomic_cond c = true →
      (ctx.valid (eImplies A c) = true → fork ctx A c t e = .ok t) ∧
      (ctx.valid (eImplies A c) = false →
        ctx.valid (eImplies A (eNot c)) = true → fork ctx A c t e = .ok e) ∧
      (ctx.valid (eImplies A c) = false →
        ctx.valid (eImplies A (eNot c)) = false →
        fork ctx A c t e = .error (.forkOn c))) ∧
    (∀ (α : Type) (ctx : Ctx) (A c1 c2 : Exp) (t e : α),
      fork ctx A (EBinOp c1 .conj c2) t e =
        (fork ctx A c2 t e).bind (fun inner => fork ctx A c1 inner e) ∧
      fork ctx A (EBinOp c1 .disj c2) t e =
        (fork ctx A c2 t e).bind (fun inner => fork ctx A c1 t inner) ∧
      fork ctx A (eNot c1) t e = fork ctx A c1 e t) ∧
    (∀ (α : Type) (ctx : Ctx) (A c ct ce : Exp) (t e : α),
      fork ctx A (ECond c ct ce) t e =
        (fork ctx A ct t e).bind (fun t' =>
          (fork ctx A ce t e).bind (fun e' => fork ctx A c t' e'))) := by
  refine ⟨?_, ?_, ?_⟩
  · intro α ctx A c t e hat
    have hunfold : fork ctx A c t e =
        (if solver_for ctx (eImplies A c) then pure t
         else if solver_for ctx (eImplies A (eNot c)) then pure e
         else .error (.forkOn c)) := by
      cases c with
      | EBinOp a op b => cases op <;> simp_all [atomic_cond] <;> rfl
      | EUnaryOp op ee => cases op <;> simp_all [atomic_cond] <;> rfl
      | ECond c t e => simp [atomic_cond] at hat
      | _ => rfl
    refine ⟨?_, ?_, ?_⟩
    · intro h1; simp [hunfold, solver_for, h1]; rfl
    · intro h1 h2; simp [hunfold, solver_for, h1, h2]; rfl
    · intro h1 h2; simp [hunfold, solver_for, h1, h2]
  · intro α ctx A c1 c2 t e
    refine ⟨rfl, rfl, rfl⟩
  · intro α ctx A c ct ce t e
    rfl

/-- Witness for C5's hypotheses at concrete inputs. -/
theorem fork_spec_witness :
    fork ctx_trivial eT (EVar "p") (ENum 1) (ENum 2) =
      .error (.forkOn (EVar "p")) :=
  ((fork_spec.1 Exp ctx_trivial eT (EVar "p") (ENum 1) (ENum 2) rfl).2.2) rfl rfl

/-- Environment for the C1 counterexample: x is the empty bag, y contains
the value of z, and w is a different element. -/
def env_cx1 : Env := fun s =>
  if s = "x" then .VBag 0
  else if s = "y" then .VBag {0}
  else if s = "z" then .VInt 0
  else if s = "w" then .VInt 1
  else .VInt 0

/-- C1 counterexample: for e = x + y under the statement (x.remove(z);
x.add(w)) and trivially true assumptions, checked_bag_delta returns
added = singleton w and removed = singleton z with no oracle involvement,
yet in the exhibited environment (x empty, y containing z's value) the bag
e - removed + added has the elements of multiset 1 only, while mutate(e, op)
evaluates to the two-element multiset: removing z is charged against the
union even though x does not contain it.  The claimed equation fails. -/
theorem checked_bag_delta_union_unsound_cx :
    checked_bag_delta 20 ctx_trivial (EBinOp (EVar "x") .add (EVar "y"))
        (SSeq (SCall (EVar "x") "remove" (EVar "z"))
              (SCall (EVar "x") "add" (EVar "w"))) eT =
      .ok (ESingleton (EVar "w"), ESingleton (EVar "z")) ∧
    sound_solver ctx_trivial.valid ∧
    sat env_cx1 eT ∧
    eval (EBinOp (EVar "x") .add (EVar "y")) env_cx1 = some (.VBag {0}) ∧
    eval (ESingleton (EVar "w")) env_cx1 = some (.VBag {1}) ∧
    eval (ESingleton (EVar "z")) env_cx1 = some (.VBag {0}) ∧
    mutate 20 (EBinOp (EVar "x") .add (EVar "y"))
        (SSeq (SCall (EVar "x") "remove" (EVar "z"))
              (SCall (EVar "x") "add" (EVar "w"))) =
      some (EBinOp (EBinOp (EBinOp (EVar "x") .sub (ESingleton (EVar "z")))
        .add (ESingleton (EVar "w"))) .add (EVar "y")) ∧
    eval (EBinOp (EBinOp (EBinOp (EVar "x") .sub (ESingleton (EVar "z")))
        .add (ESingleton (EVar "w"))) .add (EVar "y")) env_cx1 =
      some (.VBag {1, 0}) ∧
    ({0} : Multiset Int) - {0} + {1} ≠ ({1, 0} : Multiset Int) := by
  refine ⟨rfl, sound_solver_trivial, ?_, ?_, ?_, ?_, rfl, ?_, ?_⟩
  · rfl
  · decide
  · decide
  · decide
  · decide
  · decide

/-- Environment for the C3 counterexample: x contains exactly z's value. -/
def env_cx3 : Env := fun s =>
  if s = "x" then .VBag {0}
  else .VInt 0

/-- C3 counterexample: for the bare variable x under the statement
(x.remove(z); x.add(z)) and trivially true assumptions, checked_bag_delta
reads both deltas off the mutated form (x - singleton z) + singleton z and
returns added = removed = singleton z; in the exhibited environment the
element 0 has positive multiplicity in both.  The disjointness claim
fails: no bag_intersection canonicalization runs outside the flat-map
case. -/
theorem bag_delta_overlap_cx :
    checked_bag_delta 20 ctx_trivial (EVar "x")
        (SSeq (SCall (EVar "x") "remove" (EVar "z"))
              (SCall (EVar "x") "add" (EVar "z"))) eT =
      .ok (ESingleton (EVar "z"), ESingleton (EVar "z")) ∧
    sound_solver ctx_trivial.valid ∧
    sat env_cx3 eT ∧
    eval (ESingleton (EVar "z")) env_cx3 = some (.VBag {0}) ∧
    0 < Multiset.count 0 ({0} : Multiset Int) := by
  refine ⟨rfl, sound_solver_trivial, ?_, ?_, ?_⟩
  · rfl
  · decide
  · decide

/-- C4 counterexample: the cached expression is argmin of the state variable
xs under the identity comparator and the operation adds the element 5.  The
comparator is untouched, the removed part of the delta is the literal empty
bag (provably empty with no oracle call), yet better_mutate does not return
the old cached minimum: because an element was added, it returns the argmin
of the singleton of the old minimum united with the added elements. -/
theorem better_mutate_argmin_not_preserved_cx :
    checked_bag_delta 19 ctx_trivial (EStateVar (EVar "xs"))
        (SCall (EVar "xs") "add" (ENum 5)) eT =
      .ok (ESingleton (ENum 5), EEmptyList) ∧
    better_mutate 20 ctx_trivial
        (EArgMin (EVar "xs") (ELambda "v" (EVar "v")))
        (SCall (EVar "xs") "add" (ENum 5)) eT =
      .ok (EArgMin
        (EBinOp (ESingleton (EStateVar
            (EArgMin (EVar "xs") (ELambda "v" (EVar "v")))))
          .add (ESingleton (ENum 5)))
        (ELambda "v" (EVar "v"))) ∧
    (∀ r : Exp,
      EArgMin
        (EBinOp (ESingleton (EStateVar
            (EArgMin (EVar "xs") (ELambda "v" (EVar "v")))))
          .add (ESingleton (ENum 5)))
        (ELambda "v" (EVar "v")) ≠ EStateVar r) :=
  ⟨rfl, rfl, fun _ h => Exp.noConfusion h⟩

/-- C4 as amended: on a cached argmin whose comparator is alpha-equivalent
to its mutation under op (but whose overall value is not), the new value is
assembled from min-after-deletion and the added elements: if the removed
part is the literal empty bag or provably empty, min-after-deletion is the
old cached minimum; if the oracle proves exactly one element is removed,
min-after-deletion conditionally selects the heap-peek second best or the
old minimum by whether the removed element is the current minimum; otherwise
NotEfficient is raised.  In the two successful cases the result is
min-after-deletion itself only when the added part is syntactically empty,
and otherwise the argmin, under the same comparator, of the singleton of
min-after-deletion united with the added elements. -/
theorem better_mutate_argmin_cases :
    ∀ (n : Nat) (ctx : Ctx) (xs f : Exp) (op : Stm) (assumptions m0 mf : Exp)
      (add del : Exp),
      mutate n (EArgMin xs f) op = some m0 →
      alpha_equivalent (EArgMin xs f) m0 = false →
      ctx.is_collection (EArgMin xs f) = false →
      mutate n f op = some mf →
      alpha_equivalent f mf = true →
      checked_bag_delta n ctx (EStateVar xs) op assumptions = .ok (add, del) →
      (((match del with | EEmptyList => true | _ => false) = true ∨
          ctx.valid (eImplies assumptions (eEmpty del)) = true) →
        better_mutate (n + 1) ctx (EArgMin xs f) op assumptions = .ok
          (if definitely (is_empty add) then EStateVar (EArgMin xs f)
           else EArgMin
             (bag_union (ESingleton (EStateVar (EArgMin xs f))) add) f)) ∧
      ((match del with | EEmptyList => true | _ => false) = false →
        ctx.valid (eImplies assumptions (eEmpty del)) = false →
        ctx.valid (eImplies assumptions
          (eEq (EUnaryOp .uLen del) (ENum 1))) = true →
        better_mutate (n + 1) ctx (EArgMin xs f) op assumptions = .ok
          (if definitely (is_empty add) then
            ECond (eEq (EUnaryOp .uThe del) (EStateVar (EArgMin xs f)))
              (EHeapPeek2 (EStateVar (EMakeMinHeap xs f))
                (EStateVar (EUnaryOp .uLen xs)))
              (EStateVar (EArgMin xs f))
           else EArgMin (bag_union (ESingleton
             (ECond (eEq (EUnaryOp .uThe del) (EStateVar (EArgMin xs f)))
               (EHeapPeek2 (EStateVar (EMakeMinHeap xs f))
                 (EStateVar (EUnaryOp .uLen xs)))
               (EStateVar (EArgMin xs f)))) add) f)) ∧
      ((match del with | EEmptyList => true | _ => false) = false →
        ctx.valid (eImplies assumptions (eEmpty del)) = false →
        ctx.valid (eImplies assumptions
          (eEq (EUnaryOp .uLen del) (ENum 1))) = false →
        better_mutate (n + 1) ctx (EArgMin xs f) op assumptions =
          .error (.notEfficient (EArgMin xs f))) := by
  intro n ctx xs f op assumptions m0 mf add del hm0 hne hcoll hmf haeq hdelta
  refine ⟨?_, ?_, ?_⟩
  · rintro (hdel | hdel)
    · simp [better_mutate, hm0, hne, hcoll, hmf, haeq, hdelta, hdel,
        Except.bind, pure, Except.pure]
      split <;> rfl
    · simp [better_mutate, hm0, hne, hcoll, hmf, haeq, hdelta, hdel,
        Except.bind, pure, Except.pure]
      split <;> rfl
  · intro hdel hval1 hval2
    simp [better_mutate, hm0, hne, hcoll, hmf, haeq, hdelta, hdel, hval1,
      hval2, Except.bind, pure, Except.pure]
    split <;> rfl
  · intro hdel hval1 hval2
    simp [better_mutate, hm0, hne, hcoll, hmf, haeq, hdelta, hdel, hval1,
      hval2, Except.bind, pure, Except.pure]

/-- Alpha-equivalent expressions evaluate identically: binder-free structure
is compared literally, and every binder-carrying node is outside the
executable fragment (both sides evaluate to none). -/
theorem aeq_eval : ∀ (e1 e2 : Exp) (env : Env), aeq [] e1 e2 = true →
    eval e1 env = eval e2 env
  | EVar a, e2, env => by
    cases e2 <;> intro h <;> simp [aeq, aeq_var] at h
    case EVar b => subst h; rfl
  | ENum n, e2, env => by
    cases e2 <;> intro h <;> simp [aeq] at h
    case ENum n' => subst h; rfl
  | EBool b, e2, env => by
    cases e2 <;> intro h <;> simp [aeq] at h
    case EBool b' => subst h; rfl
  | EEmptyList, e2, env => by
    cases e2 <;> intro h <;> simp [aeq] at h
    rfl
  | ESingleton e, e2, env => by
    cases e2 <;> intro h <;> simp [aeq] at h
    case ESingleton e' => simp [eval, aeq_eval e e' env h]
  | EBinOp a op b, e2, env => by
    cases e2 <;> intro h <;> simp [aeq] at h
    case EBinOp a' op' b' =>
      obtain ⟨⟨hop, ha⟩, hb⟩ := h
      subst hop
      simp [eval, aeq_eval a a' env ha, aeq_eval b b' env hb]
  | EUnaryOp op e, e2, env => by
    cases e2 <;> intro h <;> simp [aeq] at h
    case EUnaryOp op' e' =>
      obtain ⟨hop, he⟩ := h
      subst hop
      cases op <;> simp [eval, aeq_eval e e' env he]
  | ECond c t e, e2, env => by
    cases e2 <;> intro h <;> simp [aeq] at h
    case ECond c' t' e' =>
      obtain ⟨⟨hc, ht⟩, he⟩ := h
      simp [eval, aeq_eval c c' env hc, aeq_eval t t' env ht,
        aeq_eval e e' env he]
  | EStateVar e, e2, env => by
    cases e2 <;> intro h <;> simp [aeq] at h
    case EStateVar e' => simp [eval, aeq_eval e e' env h]
  | ELambda a b, e2, env => by
    cases e2 <;> intro h <;> simp [aeq] at h
    rfl
  | ECall f args, e2, env => by
    cases e2 <;> intro h <;> simp [aeq] at h
    rfl
  | EArgMin e f, e2, env => by
    cases e2 <;> intro h <;> simp [aeq] at h
    rfl
  | EArgMax e f, e2, env => by
    cases e2 <;> intro h <;> simp [aeq] at h
    rfl
  | EMakeMinHeap e f, e2, env => by
    cases e2 <;> intro h <;> simp [aeq] at h
    rfl
  | EMakeMaxHeap e f, e2, env => by
    cases e2 <;> intro h <;> simp [aeq] at h
    rfl
  | EHeapPeek2 a b, e2, env => by
    cases e2 <;> intro h <;> simp [aeq] at h
    rfl
termination_by e1 => esize e1
decreasing_by all_goals simp [esize] <;> omega

/-- Alpha-equivalence respects evaluation (top-level form). -/
theorem alpha_equivalent_eval {e1 e2 : Exp} (env : Env)
    (h : alpha_equivalent e1 e2 = true) : eval e1 env = eval e2 env :=
  aeq_eval e1 e2 env h

/-- Substituting a single variable by an expression with a known value
evaluates like updating the environment at that variable: under binders both
sides are outside the executable fragment. -/
theorem subst_eval (x : String) (r : Exp) (v : Value) (env : Env)
    (hr : eval r env = some v) : ∀ e : Exp,
    eval (subst e [(x, r)]) env = eval e (upd env x v)
  | EVar y => by
    by_cases hxy : x = y
    · subst hxy
      simp [subst, sub_lookup, List.find?, eval, upd, hr]
    · have : (x == y) = false := by simp [hxy]
      simp [subst, sub_lookup, List.find?, this, eval, upd]
      rw [if_neg (fun hyx => hxy hyx.symm)]
  | ENum n => rfl
  | EBool b => rfl
  | EEmptyList => rfl
  | ESingleton e => by
    simp [subst, eval, subst_eval x r v env hr e]
  | EBinOp a op b => by
    simp [subst, eval, subst_eval x r v env hr a, subst_eval x r v env hr b]
  | EUnaryOp op e => by
    cases op <;> simp [subst, eval, subst_eval x r v env hr e]
  | ECond c t e => by
    simp [subst, eval, subst_eval x r v env hr c, subst_eval x r v env hr t,
      subst_eval x r v env hr e]
  | EStateVar e => by
    simp [subst, eval, subst_eval x r v env hr e]
  | ELambda a b => by simp [subst, eval]
  | ECall f args => by simp [subst, eval]
  | EArgMin e f => by simp [subst, eval]
  | EArgMax e f => by simp [subst, eval]
  | EMakeMinHeap e f => by simp [subst, eval]
  | EMakeMaxHeap e f => by simp [subst, eval]
  | EHeapPeek2 a b => by simp [subst, eval]
termination_by e => esize e
decreasing_by all_goals simp [esize] <;> omega

/-- Evaluation depends only on the environment's values at the expression's
free variables. -/
theorem eval_ext : ∀ (e : Exp) (env1 env2 : Env),
    (∀ y ∈ free_vars e, env1 y = env2 y) → eval e env1 = eval e env2
  | EVar x, env1, env2, h => by simp [eval, h x (by simp [free_vars])]
  | ENum _, _, _, _ => rfl
  | EBool _, _, _, _ => rfl
  | EEmptyList, _, _, _ => rfl
  | ESingleton e, env1, env2, h => by
    simp [eval, eval_ext e env1 env2 (fun y hy => h y (by simp [free_vars, hy]))]
  | EBinOp a op b, env1, env2, h => by
    have ha := eval_ext a env1 env2
      (fun y hy => h y (by simp [free_vars, hy]))
    have hb := eval_ext b env1 env2
      (fun y hy => h y (by simp [free_vars, hy]))
    simp [eval, ha, hb]
  | EUnaryOp op e, env1, env2, h => by
    have he := eval_ext e env1 env2 (fun y hy => h y (by simp [free_vars, hy]))
    cases op <;> simp [eval, he]
  | ECond c t e, env1, env2, h => by
    have hc := eval_ext c env1 env2 (fun y hy => h y (by simp [free_vars, hy]))
    have ht := eval_ext t env1 env2 (fun y hy => h y (by simp [free_vars, hy]))
    have he := eval_ext e env1 env2 (fun y hy => h y (by simp [free_vars, hy]))
    simp [eval, hc, ht, he]
  | EStateVar e, env1, env2, h => by
    simp [eval, eval_ext e env1 env2 (fun y hy => h y (by simp [free_vars, hy]))]
  | ELambda _ _, _, _, _ => rfl
  | ECall _ _, _, _, _ => rfl
  | EArgMin _ _, _, _, _ => rfl
  | EArgMax _ _, _, _, _ => rfl
  | EMakeMinHeap _ _, _, _, _ => rfl
  | EMakeMaxHeap _ _, _, _, _ => rfl
  | EHeapPeek2 _ _, _, _, _ => rfl
termination_by e => esize e
decreasing_by all_goals simp [esize] <;> omega

/-- Updating the environment at a variable that is not free in the
expression does not change its value. -/
theorem eval_upd_not_free {e : Exp} {x : String} {v : Value} (env : Env)
    (hx : x ∉ free_vars e) : eval e (upd env x v) = eval e env :=
  eval_ext e (upd env x v) env (fun y hy => by
    have : y ≠ x := fun h => hx (h ▸ hy)
    simp [upd, this])

/-- A lookup miss means the key is absent. -/
theorem sub_lookup_none_not_key {σ : List (String × Exp)} {x : String}
    (h : sub_lookup σ x = none) : x ∉ σ.map (fun p => p.1) := by
  intro hx
  obtain ⟨p, hp, hpx⟩ := List.mem_map.mp hx
  rw [sub_lookup] at h
  have hfind := Option.map_eq_none'.mp h
  have := List.find?_eq_none.mp hfind p hp
  simp [hpx] at this

/-- A lookup hit returns a range expression of the map. -/
theorem sub_lookup_some_mem {σ : List (String × Exp)} {x : String} {r : Exp}
    (h : sub_lookup σ x = some r) :
    ∃ p ∈ σ, p.2 = r := by
  simp only [sub_lookup, Option.map_eq_some'] at h
  obtain ⟨p, hp, hpr⟩ := h
  exact ⟨p, List.mem_of_find?_eq_some hp, hpr⟩

mutual

/-- Free variables of a substitution result: every free variable either was
free in the expression and is not a key of the map, or is free in one of the
map's range expressions. -/
theorem fv_subst : ∀ (e : Exp) (σ : List (String × Exp)),
    ∀ y ∈ free_vars (subst e σ),
      (y ∈ free_vars e ∧ y ∉ σ.map (fun p => p.1)) ∨
      y ∈ (σ.map (fun p => free_vars p.2)).flatten
  | EVar x, σ, y, hy => by
    simp only [subst] at hy
    cases hl : sub_lookup σ x with
    | none =>
      rw [hl] at hy
      simp [free_vars] at hy
      subst hy
      exact Or.inl ⟨by simp [free_vars], sub_lookup_none_not_key hl⟩
    | some r =>
      rw [hl] at hy
      obtain ⟨p, hp, hpr⟩ := sub_lookup_some_mem hl
      refine Or.inr (List.mem_flatten.mpr ⟨free_vars p.2, ?_, by rw [hpr]; exact hy⟩)
      exact List.mem_map.mpr ⟨p, hp, rfl⟩
  | ENum _, _, y, hy => by simp [subst, free_vars] at hy
  | EBool _, _, y, hy => by simp [subst, free_vars] at hy
  | EEmptyList, _, y, hy => by simp [subst, free_vars] at hy
  | ESingleton e, σ, y, hy => fv_subst e σ y (by simpa [subst, free_vars] using hy)
  | EBinOp a op b, σ, y, hy => by
    simp only [subst, free_vars, List.mem_append] at hy
    rcases hy with hy | hy
    · rcases fv_subst a σ y hy with ⟨h1, h2⟩ | h
      · exact Or.inl ⟨by simp [free_vars, h1], h2⟩
      · exact Or.inr h
    · rcases fv_subst b σ y hy with ⟨h1, h2⟩ | h
      · exact Or.inl ⟨by simp [free_vars, h1], h2⟩
      · exact Or.inr h
  | EUnaryOp op e, σ, y, hy => by
    simp only [subst, free_vars] at hy
    rcases fv_subst e σ y hy with ⟨h1, h2⟩ | h
    · exact Or.inl ⟨by simp [free_vars, h1], h2⟩
    · exact Or.inr h
  | ECond c t e, σ, y, hy => by
    simp only [subst, free_vars, List.mem_append] at hy
    rcases hy with (hy | hy) | hy
    · rcases fv_subst c σ y hy with ⟨h1, h2⟩ | h
      · exact Or.inl ⟨by simp [free_vars, h1], h2⟩
      · exact Or.inr h
    · rcases fv_subst t σ y hy with ⟨h1, h2⟩ | h
      · exact Or.inl ⟨by simp [free_vars, h1], h2⟩
      · exact Or.inr h
    · rcases fv_subst e σ y hy with ⟨h1, h2⟩ | h
      · exact Or.inl ⟨by simp [free_vars, h1], h2⟩
      · exact Or.inr h
  | EStateVar e, σ, y, hy => by
    simp only [subst, free_vars] at hy
    rcases fv_subst e σ y hy with ⟨h1, h2⟩ | h
    · exact Or.inl ⟨by simp [free_vars, h1], h2⟩
    · exact Or.inr h
  | ELambda a b, σ, y, hy => by
    simp only [subst, free_vars, List.mem_filter, decide_eq_true_eq] at hy
    obtain ⟨hy, hya'⟩ := hy
    rcases fv_subst b _ y hy with ⟨h1, h2⟩ | h
    · simp only [List.map_cons, List.mem_cons] at h2
      push_neg at h2
      obtain ⟨hne_a, hnk⟩ := h2
      refine Or.inl ⟨by simp [free_vars, List.mem_filter, h1, hne_a], ?_⟩
      intro hk
      obtain ⟨p, hp, hpy⟩ := List.mem_map.mp hk
      exact hnk (List.mem_map.mpr
        ⟨p, List.mem_filter.mpr ⟨hp, by simp [hpy, hne_a]⟩, hpy⟩)
    · simp only [List.map_cons, List.flatten_cons, free_vars,
        List.mem_append, List.mem_singleton] at h
      rcases h with h | h
      · exact absurd h hya'
      · obtain ⟨l, hl, hyl⟩ := List.mem_flatten.mp h
        obtain ⟨p, hp, hpl⟩ := List.mem_map.mp hl
        refine Or.inr (List.mem_flatten.mpr ⟨l, ?_, hyl⟩)
        exact List.mem_map.mpr ⟨p, List.mem_of_mem_filter hp, hpl⟩
  | ECall f args, σ, y, hy => by
    simp only [subst, free_vars] at hy
    exact fv_subst_list args σ y hy
  | EArgMin e f, σ, y, hy => by
    simp only [subst, free_vars, List.mem_append] at hy
    rcases hy with hy | hy
    · rcases fv_subst e σ y hy with ⟨h1, h2⟩ | h
      · exact Or.inl ⟨by simp [free_vars, h1], h2⟩
      · exact Or.inr h
    · rcases fv_subst f σ y hy with ⟨h1, h2⟩ | h
      · exact Or.inl ⟨by simp [free_vars, h1], h2⟩
      · exact Or.inr h
  | EArgMax e f, σ, y, hy => by
    simp only [subst, free_vars, List.mem_append] at hy
    rcases hy with hy | hy
    · rcases fv_subst e σ y hy with ⟨h1, h2⟩ | h
      · exact Or.inl ⟨by simp [free_vars, h1], h2⟩
      · exact Or.inr h
    · rcases fv_subst f σ y hy with ⟨h1, h2⟩ | h
      · exact Or.inl ⟨by simp [free_vars, h1], h2⟩
      · exact Or.inr h
  | EMakeMinHeap e f, σ, y, hy => by
    simp only [subst, free_vars, List.mem_append] at hy
    rcases hy with hy | hy
    · rcases fv_subst e σ y hy with ⟨h1, h2⟩ | h
      · exact Or.inl ⟨by simp [free_vars, h1], h2⟩
      · exact Or.inr h
    · rcases fv_subst f σ y hy with ⟨h1, h2⟩ | h
      · exact Or.inl ⟨by simp [free_vars, h1], h2⟩
      · exact Or.inr h
  | EMakeMaxHeap e f, σ, y, hy => by
    simp only [subst, free_vars, List.mem_append] at hy
    rcases hy with hy | hy
    · rcases fv_subst e σ y hy with ⟨h1, h2⟩ | h
      · exact Or.inl ⟨by simp [free_vars, h1], h2⟩
      · exact Or.inr h
    · rcases fv_subst f σ y hy with ⟨h1, h2⟩ | h
      · exact Or.inl ⟨by simp [free_vars, h1], h2⟩
      · exact Or.inr h
  | EHeapPeek2 a b, σ, y, hy => by
    simp only [subst, free_vars, List.mem_append] at hy
    rcases hy with hy | hy
    · rcases fv_subst a σ y hy with ⟨h1, h2⟩ | h
      · exact Or.inl ⟨by simp [free_vars, h1], h2⟩
      · exact Or.inr h
    · rcases fv_subst b σ y hy with ⟨h1, h2⟩ | h
      · exact Or.inl ⟨by simp [free_vars, h1], h2⟩
      · exact Or.inr h

/-- Free variables of a substituted expression list. -/
theorem fv_subst_list : ∀ (l : List Exp) (σ : List (String × Exp)),
    ∀ y ∈ free_vars_list (subst_list l σ),
      (y ∈ free_vars_list l ∧ y ∉ σ.map (fun p => p.1)) ∨
      y ∈ (σ.map (fun p => free_vars p.2)).flatten
  | [], _, y, hy => by simp [subst_list, free_vars_list] at hy
  | e :: es, σ, y, hy => by
    simp only [subst_list, free_vars_list, List.mem_append] at hy
    rcases hy with hy | hy
    · rcases fv_subst e σ y hy with ⟨h1, h2⟩ | h
      · exact Or.inl ⟨by simp [free_vars_list, h1], h2⟩
      · exact Or.inr h
    · rcases fv_subst_list es σ y hy with ⟨h1, h2⟩ | h
      · exact Or.inl ⟨by simp [free_vars_list, h1], h2⟩
      · exact Or.inr h

end

/-- Variables read by the expressions embedded in a statement. -/
def stm_vars : Stm → List String
  | SNoOp => []
  | SAssign lhs rhs => free_vars lhs ++ free_vars rhs
  | SCall target _ arg => free_vars target ++ free_vars arg
  | SIf c s1 s2 => free_vars c ++ stm_vars s1 ++ stm_vars s2
  | SSeq s1 s2 => stm_vars s1 ++ stm_vars s2
  | SDecl _ v => free_vars v
  | SForEach _ bag body => free_vars bag ++ stm_vars body

/-- Scoping side condition for local declarations, following mutate's
recursion: a declaration whose value is dropped (not consumed by a following
statement in the same sequence) must not shadow a protected variable, and
statements mutated against an enriched expression protect the variables the
enrichment can introduce.  This is the well-scopedness assumption under
which mutate's flat treatment of declarations is meaningful. -/
def decls_safe : Nat → Stm → List String → Bool
  | _, SNoOp, _ => true
  | _, SAssign _ _, _ => true
  | _, SCall _ _ _, _ => true
  | _, SDecl x _, prot => decide (x ∉ prot)
  | _, SForEach _ _ _, _ => true
  | 0, SIf _ _ _, _ => false
  | n + 1, SIf _ s1 s2, prot => decls_safe n s1 prot && decls_safe n s2 prot
  | 0, SSeq _ _, _ => false
  | n + 1, SSeq s1 s2, prot =>
    match s1 with
    | SSeq a b => decls_safe n (SSeq a (SSeq b s2)) prot
    | SDecl _ _ => decls_safe n s2 prot
    | _ => decls_safe n s2 prot && decls_safe n s1 (prot ++ stm_vars s2)

/-- A successful assignment-mutation targets a variable and substitutes. -/
theorem do_assignment_ok {lhs rhs e m : Exp}
    (h : _do_assignment lhs rhs e = some m) :
    ∃ x, lhs = EVar x ∧ m = subst e [(x, rhs)] := by
  cases lhs <;> simp [_do_assignment] at h
  case EVar x => exact ⟨x, rfl, h.symm⟩

/-- Sequence re-association does not change execution. -/
theorem exec_seq_assoc (a b c : Stm) (env : Env) :
    exec (SSeq (SSeq a b) c) env = exec (SSeq a (SSeq b c)) env := by
  simp only [exec]
  cases h : exec a env <;> simp [exec, h]

/-- An element add executes like an add_all of the singleton. -/
theorem exec_call_add (t a : Exp) (env : Env) :
    exec (SCall t "add" a) env = exec (SCall t "add_all" (ESingleton a)) env := by
  cases t <;> simp [exec]
  case EVar tt =>
    cases henv : env tt <;> rcases heval : eval a env with _ | v <;>
      (try cases v) <;> simp [exec, eval, henv, heval]

/-- An element remove executes like a remove_all of the singleton. -/
theorem exec_call_remove (t a : Exp) (env : Env) :
    exec (SCall t "remove" a) env =
      exec (SCall t "remove_all" (ESingleton a)) env := by
  cases t <;> simp [exec]
  case EVar tt =>
    cases henv : env tt <;> rcases heval : eval a env with _ | v <;>
      (try cases v) <;> simp [exec, eval, henv, heval]

/-- A successful add_all executes like the assignment of the bag union. -/
theorem exec_call_add_all_ok {tt : String} {xs : Exp} {env env' : Env}
    (h : exec (SCall (EVar tt) "add_all" xs) env = some env') :
    exec (SAssign (EVar tt) (EBinOp (EVar tt) .add xs)) env = some env' := by
  simp only [exec] at h ⊢
  cases henv : env tt <;> rw [henv] at h <;>
    rcases heval : eval xs env with _ | v <;> rw [heval] at h <;>
    (try cases v) <;> simp at h <;>
    simp [eval, henv, heval, eval_bin, ← h]

/-- A successful remove_all executes like the assignment of the bag
difference. -/
theorem exec_call_remove_all_ok {tt : String} {xs : Exp} {env env' : Env}
    (h : exec (SCall (EVar tt) "remove_all" xs) env = some env') :
    exec (SAssign (EVar tt) (EBinOp (EVar tt) .sub xs)) env = some env' := by
  simp only [exec] at h ⊢
  cases henv : env tt <;> rw [henv] at h <;>
    rcases heval : eval xs env with _ | v <;> rw [heval] at h <;>
    (try cases v) <;> simp at h <;>
    simp [eval, henv, heval, eval_bin, ← h]

/-- Inversion for a successful Option bind. -/
theorem opt_bind_eq_some {α β : Type} {x : Option α} {f : α → Option β}
    {b : β} : (x >>= f = some b) ↔ ∃ a, x = some a ∧ f a = some b := by
  cases x <;> simp

/-- Inversion for Option pure. -/
theorem opt_pure_eq {α : Type} {a b : α} :
    ((pure a : Option α) = some b) ↔ a = b := by
  change some a = some b ↔ a = b
  simp

/-- Inversion for a successful sequence execution. -/
theorem exec_seq_eq_some {s1 s2 : Stm} {env env' : Env} :
    exec (SSeq s1 s2) env = some env' ↔
      ∃ env1, exec s1 env = some env1 ∧ exec s2 env1 = some env' := by
  simp only [exec, opt_bind_eq_some]

/-- Free variables of a mutation result come from the expression or from the
statement's embedded expressions. -/
theorem fv_mutate : ∀ (fuel : Nat) (e : Exp) (s : Stm) (m : Exp),
    mutate fuel e s = some m →
    ∀ y ∈ free_vars m, y ∈ free_vars e ∨ y ∈ stm_vars s := by
  intro fuel
  induction fuel with
  | zero => intro e s m hm; simp [mutate] at hm
  | succ n ih =>
    intro e s m hm y hy
    cases s with
    | SNoOp =>
      simp [mutate] at hm
      subst hm
      exact Or.inl hy
    | SAssign lhs rhs =>
      simp only [mutate] at hm
      obtain ⟨x, hx, hmm⟩ := do_assignment_ok hm
      subst hx; subst hmm
      rcases fv_subst e [(x, rhs)] y hy with ⟨h1, _⟩ | h
      · exact Or.inl h1
      · simp at h
        exact Or.inr (by simp [stm_vars, h])
    | SCall t f a =>
      simp only [mutate] at hm
      split at hm
      · rcases ih e _ m hm y hy with h | h
        · exact Or.inl h
        · exact Or.inr (by simpa [stm_vars, free_vars] using h)
      · rcases ih e _ m hm y hy with h | h
        · exact Or.inl h
        · exact Or.inr (by simpa [stm_vars, free_vars] using h)
      · rcases ih e _ m hm y hy with h | h
        · exact Or.inl h
        · exact Or.inr (by simpa [stm_vars, free_vars] using h)
      · rcases ih e _ m hm y hy with h | h
        · exact Or.inl h
        · exact Or.inr (by simpa [stm_vars, free_vars] using h)
      · simp at hm
    | SIf c s1 s2 =>
      simp only [mutate, opt_bind_eq_some, opt_pure_eq] at hm
      obtain ⟨tb, htb, eb, heb, hm⟩ := hm
      subst hm
      by_cases halpha : alpha_equivalent tb eb = true
      · rw [if_pos halpha] at hy
        rcases ih e s1 tb htb y hy with h | h
        · exact Or.inl h
        · exact Or.inr (by simp [stm_vars, h])
      · rw [if_neg halpha] at hy
        simp only [free_vars, List.mem_append] at hy
        rcases hy with (hy | hy) | hy
        · exact Or.inr (by simp [stm_vars, hy])
        · rcases ih e s1 tb htb y hy with h | h
          · exact Or.inl h
          · exact Or.inr (by simp [stm_vars, h])
        · rcases ih e s2 eb heb y hy with h | h
          · exact Or.inl h
          · exact Or.inr (by simp [stm_vars, h])
    | SSeq s1 s2 =>
      rcases s1 with _ | ⟨lhs, rhs⟩ | ⟨t, f, a⟩ | ⟨c, u1, u2⟩ | ⟨a, b⟩ |
        ⟨x, v⟩ | ⟨i, bg, bd⟩
      case SSeq =>
        simp only [mutate] at hm
        rcases ih e _ m hm y hy with h | h
        · exact Or.inl h
        · exact Or.inr (by
            simp only [stm_vars, List.mem_append] at h ⊢
            tauto)
      case SDecl =>
        simp only [mutate, opt_bind_eq_some, opt_pure_eq] at hm
        obtain ⟨e2, he2, e3, he3, hm⟩ := hm
        subst hm
        cases n with
        | zero => simp [mutate] at he3
        | succ n' =>
          simp only [mutate, Option.some.injEq] at he3
          subst he3
          rcases fv_subst e2 [(x, v)] y hy with ⟨h1, _⟩ | h
          · rcases ih e s2 e2 he2 y h1 with h | h
            · exact Or.inl h
            · exact Or.inr (by simp [stm_vars, h])
          · simp at h
            exact Or.inr (by simp [stm_vars, h])
      all_goals
        simp only [mutate, opt_bind_eq_some, opt_pure_eq] at hm
        obtain ⟨e2, he2, e3, he3, hm⟩ := hm
        subst hm
        rcases ih e2 _ e3 he3 y hy with h | h
        · rcases ih e s2 e2 he2 y h with h' | h'
          · exact Or.inl h'
          · exact Or.inr (by simp [stm_vars, h'])
        · exact Or.inr (by simp [stm_vars] at h ⊢ <;> tauto)
    | SDecl x v =>
      simp [mutate] at hm
      subst hm
      exact Or.inl hy
    | SForEach i bg bd => simp [mutate] at hm

/-- A successful checked_bag_delta unwraps, through the dbg size check, to a
successful run of the undecorated case analysis at fuel lowered by two. -/
theorem checked_bag_delta_ok_unwrap {n : Nat} {ctx : Ctx} {e : Exp} {s : Stm}
    {assumptions : Exp} {r : Exp × Exp}
    (h : checked_bag_delta n ctx e s assumptions = .ok r) :
    ∃ m, m + 2 = n ∧ bag_delta_cases m ctx e s assumptions = .ok r := by
  match n with
  | 0 => simp [checked_bag_delta] at h
  | 1 => simp [checked_bag_delta, bag_delta] at h
  | m + 2 =>
    refine ⟨m, rfl, ?_⟩
    simp only [checked_bag_delta, bag_delta] at h
    obtain ⟨r', hr', hif⟩ := except_bind_ok h
    by_cases hsz : esize r'.2 > 100
    · simp [hsz] at hif
    · simp [hsz] at hif
      rw [hr']
      exact hif

/-- C9: when the old and new values are provably equal under assumptions and
invariants, sketch_update emits a no-op and no subgoals (for any lvalue
type); otherwise, on a bag- or set-typed lvalue it produces exactly two
subgoals — the additions, computed as new minus old, and the deletions,
computed as old minus new (on the state-variable-stripped new value) — and
the statement is the bulk remove loop over the deletions subgoal followed by
the bulk add loop over the additions subgoal, removals first. -/
theorem sketch_update_bag_spec :
    ∀ (V : Exp → Bool) (un : Bool) (fn : Nat) (lval old_v new_v : Exp)
      (ctx : List String) (assumptions invariants : List Exp),
      (∀ ty : Ty, V (eImplies (eAll (assumptions ++ invariants))
          (eEq old_v new_v)) = true →
        sketch_update V false un fn lval ty old_v new_v ctx assumptions
          invariants = (SNoOp, [])) ∧
      (∀ t : Ty, V (eImplies (eAll (assumptions ++ invariants))
          (eEq old_v new_v)) = false →
        ∃ (q_add q_del : Query) (to_add to_del : Exp) (v : String),
          sketch_update V false un fn lval (Ty.TBag t) old_v new_v ctx
            assumptions invariants =
            (SSeq (SForEach v to_del (SCall lval "remove" (EVar v)))
                  (SForEach v to_add (SCall lval "add" (EVar v))),
             [q_add, q_del]) ∧
          q_add.ret = EBinOp (strip_EStateVar new_v) .sub old_v ∧
          q_del.ret = EBinOp old_v .sub (strip_EStateVar new_v) ∧
          to_add = ECall q_add.name (q_add.args.map EVar) ∧
          to_del = ECall q_del.name (q_del.args.map EVar)) ∧
      (∀ t : Ty, V (eImplies (eAll (assumptions ++ invariants))
          (eEq old_v new_v)) = false →
        ∃ (q_add q_del : Query) (to_add to_del : Exp) (v : String),
          sketch_update V false un fn lval (Ty.TSet t) old_v new_v ctx
            assumptions invariants =
            (SSeq (SForEach v to_del (SCall lval "remove" (EVar v)))
                  (SForEach v to_add (SCall lval "add" (EVar v))),
             [q_add, q_del]) ∧
          q_add.ret = EBinOp (strip_EStateVar new_v) .sub old_v ∧
          q_del.ret = EBinOp old_v .sub (strip_EStateVar new_v) ∧
          to_add = ECall q_add.name (q_add.args.map EVar) ∧
          to_del = ECall q_del.name (q_del.args.map EVar)) := by
  intro V un fn lval old_v new_v ctx assumptions invariants
  refine ⟨?_, ?_, ?_⟩
  · intro ty hv
    simp [sketch_update, hv]
  · intro t hv
    simp only [sketch_update, hv, Bool.false_eq_true, if_false, make_subgoal,
      Bool.false_and, seq_stm, seq_of, List.filter]
    exact ⟨_, _, _, _, _, rfl, rfl, rfl, rfl, rfl⟩
  · intro t hv
    simp only [sketch_update, hv, Bool.false_eq_true, if_false, make_subgoal,
      Bool.false_and, seq_stm, seq_of, List.filter]
    exact ⟨_, _, _, _, _, rfl, rfl, rfl, rfl, rfl⟩

/-- Witness for C9 at concrete inputs: both the provably-equal case and the
bag case with a never-validating oracle. -/
theorem sketch_update_bag_spec_witness :
    sketch_update (fun _ => true) false false 0 (EVar "S") (Ty.TBag Ty.TInt)
        (EVar "old") (EVar "new") ["S"] [] [] = (SNoOp, []) ∧
    ∃ (q_add q_del : Query) (to_add to_del : Exp) (v : String),
      sketch_update (fun _ => false) false false 0 (EVar "S")
          (Ty.TBag Ty.TInt) (EVar "old") (EVar "new") ["S"] [] [] =
        (SSeq (SForEach v to_del (SCall (EVar "S") "remove" (EVar v)))
              (SForEach v to_add (SCall (EVar "S") "add" (EVar v))),
         [q_add, q_del]) ∧
      q_add.ret = EBinOp (strip_EStateVar (EVar "new")) .sub (EVar "old") ∧
      q_del.ret = EBinOp (EVar "old") .sub (strip_EStateVar (EVar "new")) ∧
      to_add = ECall q_add.name (q_add.args.map EVar) ∧
      to_del = ECall q_del.name (q_del.args.map EVar) :=
  ⟨(sketch_update_bag_spec (fun _ => true) false 0 (EVar "S") (EVar "old")
      (EVar "new") ["S"] [] []).1 (Ty.TBag Ty.TInt) rfl,
   (sketch_update_bag_spec (fun _ => false) false 0 (EVar "S") (EVar "old")
      (EVar "new") ["S"] [] []).2.1 Ty.TInt rfl⟩

/-- Witness for C4's amended statement at the counterexample input. -/
theorem better_mutate_argmin_cases_witness :
    better_mutate 20 ctx_trivial
        (EArgMin (EVar "xs") (ELambda "v" (EVar "v")))
        (SCall (EVar "xs") "add" (ENum 5)) eT =
      .ok (EArgMin
        (EBinOp (ESingleton (EStateVar
            (EArgMin (EVar "xs") (ELambda "v" (EVar "v")))))
          .add (ESingleton (ENum 5)))
        (ELambda "v" (EVar "v"))) := by
  have h := (better_mutate_argmin_cases 19 ctx_trivial (EVar "xs")
    (ELambda "v" (EVar "v")) (SCall (EVar "xs") "add" (ENum 5)) eT
    (EArgMin (EBinOp (EVar "xs") .add (ESingleton (ENum 5)))
      (ELambda "v" (EVar "v")))
    (ELambda "v" (EVar "v")) (ESingleton (ENum 5)) EEmptyList
    rfl rfl rfl rfl rfl rfl).1 (Or.inl rfl)
  exact h

/-- C2: for every expression and well-scoped statement that executes
normally, evaluating the mutated expression in the pre-state equals
evaluating the original expression in the post-state.  Well-scopedness
(decls_safe) protects the expression's free variables from being shadowed
by a local declaration whose scope mutate treats flatly. -/
theorem mutate_agrees_with_exec :
    ∀ (fuel : Nat) (op : Stm) (e : Exp) (prot : List String)
      (env env' : Env) (m : Exp),
      (∀ y ∈ free_vars e, y ∈ prot) →
      decls_safe fuel op prot = true →
      exec op env = some env' →
      mutate fuel e op = some m →
      eval m env = eval e env' := by
  intro fuel
  induction fuel with
  | zero => intro op e prot env env' m _ _ _ hm; simp [mutate] at hm
  | succ n ih =>
    intro op e prot env env' m hprot hsafe hexec hm
    cases op with
    | SNoOp =>
      simp only [mutate, Option.some.injEq] at hm
      simp only [exec, Option.some.injEq] at hexec
      subst hm; subst hexec; rfl
    | SAssign lhs rhs =>
      simp only [mutate] at hm
      obtain ⟨x, hx, hmm⟩ := do_assignment_ok hm
      subst hx; subst hmm
      simp only [exec] at hexec
      rcases heval : eval rhs env with _ | v
      · rw [heval] at hexec; simp at hexec
      · rw [heval] at hexec; simp at hexec
        rw [subst_eval x rhs v env heval e, hexec]
    | SCall t f a =>
      simp only [mutate] at hm
      split at hm
      · exact ih _ e prot env env' m hprot (by cases n <;> rfl)
          (by rw [← exec_call_add]; exact hexec) hm
      · cases t
        case EVar tt =>
          exact ih _ e prot env env' m hprot (by cases n <;> rfl)
            (exec_call_add_all_ok hexec) hm
        all_goals simp [exec] at hexec
      · exact ih _ e prot env env' m hprot (by cases n <;> rfl)
          (by rw [← exec_call_remove]; exact hexec) hm
      · cases t
        case EVar tt =>
          exact ih _ e prot env env' m hprot (by cases n <;> rfl)
            (exec_call_remove_all_ok hexec) hm
        all_goals simp [exec] at hexec
      · simp at hm
    | SIf c s1 s2 =>
      simp only [mutate, opt_bind_eq_some, opt_pure_eq] at hm
      obtain ⟨tb, htb, eb, heb, hm⟩ := hm
      subst hm
      simp only [decls_safe, Bool.and_eq_true] at hsafe
      obtain ⟨hs1, hs2⟩ := hsafe
      simp only [exec] at hexec
      rcases hc : eval c env with _ | v
      · rw [hc] at hexec; simp at hexec
      · rw [hc] at hexec
        rcases v with k | b | bb
        · simp at hexec
        · cases b with
          | false =>
            simp at hexec
            have h2 := ih s2 e prot env env' eb hprot hs2 hexec heb
            by_cases halpha : alpha_equivalent tb eb = true
            · rw [if_pos halpha, alpha_equivalent_eval env halpha]
              exact h2
            · rw [if_neg halpha]
              simp only [eval, hc]
              exact h2
          | true =>
            simp at hexec
            have h1 := ih s1 e prot env env' tb hprot hs1 hexec htb
            by_cases halpha : alpha_equivalent tb eb = true
            · rw [if_pos halpha]; exact h1
            · rw [if_neg halpha]
              simp only [eval, hc]
              exact h1
        · simp at hexec
    | SSeq s1 s2 =>
      rcases s1 with _ | ⟨lhs, rhs⟩ | ⟨t, f, a⟩ | ⟨c, u1, u2⟩ | ⟨a, b⟩ |
        ⟨x, v⟩ | ⟨i, bg, bd⟩
      case SSeq =>
        simp only [mutate] at hm
        simp only [decls_safe] at hsafe
        refine ih _ e prot env env' m hprot hsafe ?_ hm
        rw [← exec_seq_assoc]; exact hexec
      case SDecl =>
        simp only [mutate, opt_bind_eq_some, opt_pure_eq] at hm
        obtain ⟨e2, he2, e3, he3, hm⟩ := hm
        subst hm
        cases n with
        | zero => simp [mutate] at he3
        | succ n' =>
          simp only [mutate, Option.some.injEq] at he3
          subst he3
          simp only [exec, opt_bind_eq_some] at hexec
          obtain ⟨env1, henv1, hexec2⟩ := hexec
          rcases heval : eval v env with _ | w
          · rw [heval] at henv1; simp at henv1
          · rw [heval] at henv1; simp at henv1
            subst henv1
            simp only [decls_safe] at hsafe
            rw [subst_eval x v w env heval e2]
            exact ih s2 e prot (upd env x w) env' e2 hprot hsafe hexec2 he2
      case SForEach =>
        simp only [mutate, opt_bind_eq_some] at hm
        obtain ⟨e2, he2, hm2⟩ := hm
        cases n <;> simp [mutate] at hm2
      all_goals
        simp only [mutate, opt_bind_eq_some, opt_pure_eq] at hm
        obtain ⟨e2, he2, e3, he3, hm⟩ := hm
        have hm' : e3 = m := hm
        subst hm'
        simp only [decls_safe, Bool.and_eq_true] at hsafe
        rw [exec_seq_eq_some] at hexec
        obtain ⟨env1, henv1, hexec2⟩ := hexec
        have hfv2 : ∀ y ∈ free_vars e2, y ∈ prot ++ stm_vars s2 := by
          intro y hy
          rcases fv_mutate n e s2 e2 he2 y hy with h | h
          · exact List.mem_append_left _ (hprot y h)
          · exact List.mem_append_right _ h
        have g1 : eval e3 env = eval e2 env1 := by
          refine ih _ e2 (prot ++ stm_vars s2) env env1 e3 hfv2 ?_ henv1 he3
          first
            | exact hsafe.2
            | simp [decls_safe]
        have g2 : eval e2 env1 = eval e env' := by
          refine ih s2 e prot env1 env' e2 hprot ?_ hexec2 he2
          first
            | exact hsafe.1
            | exact hsafe
        exact g1.trans g2
    | SDecl x v =>
      simp only [mutate, Option.some.injEq] at hm
      subst hm
      simp only [exec] at hexec
      rcases heval : eval v env with _ | w
      · rw [heval] at hexec; simp at hexec
      · rw [heval] at hexec; simp at hexec
        subst hexec
        simp only [decls_safe] at hsafe
        have hxprot : x ∉ prot := of_decide_eq_true hsafe
        have hx : x ∉ free_vars e := fun hmem => hxprot (hprot x hmem)
        exact (eval_upd_not_free env hx).symm
    | SForEach i bg bd => simp [mutate] at hm

theorem mutate_agrees_with_exec_witness :
    eval (ENum 1) (fun _ => VInt 0) =
      eval (EVar "x") (upd (fun _ => VInt 0) "x" (VInt 1)) :=
  mutate_agrees_with_exec 3 (SAssign (EVar "x") (ENum 1)) (EVar "x") ["x"]
    (fun _ => VInt 0) (upd (fun _ => VInt 0) "x" (VInt 1)) (ENum 1)
    (by decide) (by decide) rfl rfl

/-- Inversion for a successful Except bind, as an equivalence. -/
theorem exc_bind_eq_ok {ε α β : Type} {x : Except ε α} {f : α → Except ε β}
    {b : β} : ((x >>= f) = .ok b) ↔ ∃ a, x = .ok a ∧ f a = .ok b := by
  cases x <;> simp [Except.bind]

/-- Soundness of fork at an atomic condition, phrased against the unfolded
if-chain: under a sound oracle and satisfied assumptions, a returned branch
agrees with the condition's runtime value. -/
theorem fork_atomic_sound {α : Type} {ctx : Ctx} {A c : Exp} {tb eb r : α}
    {env : Env} {v : Bool}
    (hs : sound_solver ctx.valid) (hA : sat env A)
    (hv : eval c env = some (VBool v))
    (hunfold : fork ctx A c tb eb =
      (if solver_for ctx (eImplies A c) then pure tb
       else if solver_for ctx (eImplies A (eNot c)) then pure eb
       else .error (.forkOn c)))
    (hf : fork ctx A c tb eb = .ok r) :
    (v = true ∧ r = tb) ∨ (v = false ∧ r = eb) := by
  have hA' : eval A env = some (VBool true) := hA
  rw [hunfold] at hf
  by_cases h1 : solver_for ctx (eImplies A c) = true
  · rw [if_pos h1] at hf
    have himp : eval (eImplies A c) env = some (VBool v) := by
      simp [eImplies, eval, hA', hv, eval_bin]
    left
    refine ⟨?_, by simpa [pure, Except.pure] using hf.symm⟩
    cases v
    · exact absurd himp (hs _ env h1)
    · rfl
  · rw [if_neg h1] at hf
    by_cases h2 : solver_for ctx (eImplies A (eNot c)) = true
    · rw [if_pos h2] at hf
      have himp : eval (eImplies A (eNot c)) env = some (VBool (!v)) := by
        simp [eImplies, eNot, eval, hA', hv, eval_bin]
      right
      refine ⟨?_, by simpa [pure, Except.pure] using hf.symm⟩
      cases v
      · rfl
      · exact absurd himp (by simpa using hs _ env h2)
    · rw [if_neg h2] at hf
      exact absurd hf (by simp)

/-- Soundness of fork: under a sound oracle and satisfied assumptions, when
the condition evaluates to a boolean and fork returns normally, the returned
branch is the one the runtime value selects. -/
theorem fork_sound {α : Type} (ctx : Ctx) (A : Exp) (env : Env)
    (hs : sound_solver ctx.valid) (hA : sat env A) :
    ∀ (c : Exp) (v : Bool) (tb eb r : α),
      eval c env = some (VBool v) → fork ctx A c tb eb = .ok r →
      (v = true ∧ r = tb) ∨ (v = false ∧ r = eb)
  | EBinOp c1 op c2, v, tb, eb, r, hv, hf => by
    cases op
    case conj =>
      simp only [eval, opt_bind_eq_some] at hv
      obtain ⟨w1, hw1, w2, hw2, hbin⟩ := hv
      rcases w1 with n1 | b1 | g1 <;> rcases w2 with n2 | b2 | g2 <;>
        simp [eval_bin] at hbin
      have hf' : ((fork ctx A c2 tb eb) >>=
          fun inner => fork ctx A c1 inner eb) = .ok r := hf
      rw [exc_bind_eq_ok] at hf'
      obtain ⟨inner, h2, h1⟩ := hf'
      have IH2 := fork_sound ctx A env hs hA c2 b2 tb eb inner hw2 h2
      have IH1 := fork_sound ctx A env hs hA c1 b1 inner eb r hw1 h1
      subst hbin
      rcases IH1 with ⟨hb1, hr⟩ | ⟨hb1, hr⟩
      · subst hb1; subst hr
        rcases IH2 with ⟨hb2, hi⟩ | ⟨hb2, hi⟩
        · subst hb2; subst hi; left; exact ⟨rfl, rfl⟩
        · subst hb2; subst hi; right; exact ⟨rfl, rfl⟩
      · subst hb1; subst hr; right; exact ⟨rfl, rfl⟩
    case disj =>
      simp only [eval, opt_bind_eq_some] at hv
      obtain ⟨w1, hw1, w2, hw2, hbin⟩ := hv
      rcases w1 with n1 | b1 | g1 <;> rcases w2 with n2 | b2 | g2 <;>
        simp [eval_bin] at hbin
      have hf' : ((fork ctx A c2 tb eb) >>=
          fun inner => fork ctx A c1 tb inner) = .ok r := hf
      rw [exc_bind_eq_ok] at hf'
      obtain ⟨inner, h2, h1⟩ := hf'
      have IH2 := fork_sound ctx A env hs hA c2 b2 tb eb inner hw2 h2
      have IH1 := fork_sound ctx A env hs hA c1 b1 tb inner r hw1 h1
      subst hbin
      rcases IH1 with ⟨hb1, hr⟩ | ⟨hb1, hr⟩
      · subst hb1; subst hr; left; exact ⟨rfl, rfl⟩
      · subst hb1; subst hr
        rcases IH2 with ⟨hb2, hi⟩ | ⟨hb2, hi⟩
        · subst hb2; subst hi; left; exact ⟨rfl, rfl⟩
        · subst hb2; subst hi; right; exact ⟨rfl, rfl⟩
    all_goals exact fork_atomic_sound hs hA hv rfl hf
  | EUnaryOp op e, v, tb, eb, r, hv, hf => by
    cases op
    case uNot =>
      simp only [eval] at hv
      rcases he : eval e env with _ | w
      · rw [he] at hv; simp at hv
      · rw [he] at hv
        rcases w with k | b | g
        · simp at hv
        · replace hv : some (VBool (!b)) = some (VBool v) := hv
          injection hv with h
          injection h with h2
          have hbv : v = !b := h2.symm
          subst hbv
          have IH := fork_sound ctx A env hs hA e b eb tb r he hf
          rcases IH with ⟨hb, hr⟩ | ⟨hb, hr⟩
          · subst hb; subst hr; right; exact ⟨rfl, rfl⟩
          · subst hb; subst hr; left; exact ⟨rfl, rfl⟩
        · simp at hv
    all_goals exact fork_atomic_sound hs hA hv rfl hf
  | ECond c ct ce, v, tb, eb, r, hv, hf => by
    have hf' : ((fork ctx A ct tb eb) >>= fun t' =>
        (fork ctx A ce tb eb) >>= fun e' => fork ctx A c t' e') = .ok r := hf
    rw [exc_bind_eq_ok] at hf'
    obtain ⟨t', ht', hf2⟩ := hf'
    rw [exc_bind_eq_ok] at hf2
    obtain ⟨e', he', hf3⟩ := hf2
    simp only [eval] at hv
    rcases hc : eval c env with _ | w
    · rw [hc] at hv; simp at hv
    · rw [hc] at hv
      rcases w with k | b | g
      · simp at hv
      · have IHc := fork_sound ctx A env hs hA c b t' e' r hc hf3
        cases b
        · replace hv : eval ce env = some (VBool v) := hv
          rcases IHc with ⟨hb, _⟩ | ⟨_, hr⟩
          · exact absurd hb (by simp)
          · rw [hr]
            exact fork_sound ctx A env hs hA ce v tb eb e' hv he'
        · replace hv : eval ct env = some (VBool v) := hv
          rcases IHc with ⟨_, hr⟩ | ⟨hb, _⟩
          · rw [hr]
            exact fork_sound ctx A env hs hA ct v tb eb t' hv ht'
          · exact absurd hb (by simp)
      · simp at hv
  | EVar x, v, tb, eb, r, hv, hf => fork_atomic_sound hs hA hv rfl hf
  | ENum n, v, tb, eb, r, hv, hf => fork_atomic_sound hs hA hv rfl hf
  | EBool b, v, tb, eb, r, hv, hf => fork_atomic_sound hs hA hv rfl hf
  | EEmptyList, v, tb, eb, r, hv, hf => fork_atomic_sound hs hA hv rfl hf
  | ESingleton e, v, tb, eb, r, hv, hf => fork_atomic_sound hs hA hv rfl hf
  | EStateVar e, v, tb, eb, r, hv, hf => fork_atomic_sound hs hA hv rfl hf
  | ELambda a b, v, tb, eb, r, hv, hf => fork_atomic_sound hs hA hv rfl hf
  | ECall f as, v, tb, eb, r, hv, hf => fork_atomic_sound hs hA hv rfl hf
  | EArgMin e f, v, tb, eb, r, hv, hf => fork_atomic_sound hs hA hv rfl hf
  | EArgMax e f, v, tb, eb, r, hv, hf => fork_atomic_sound hs hA hv rfl hf
  | EMakeMinHeap e f, v, tb, eb, r, hv, hf => fork_atomic_sound hs hA hv rfl hf
  | EMakeMaxHeap e f, v, tb, eb, r, hv, hf => fork_atomic_sound hs hA hv rfl hf
  | EHeapPeek2 a b, v, tb, eb, r, hv, hf => fork_atomic_sound hs hA hv rfl hf
termination_by c => esize c
decreasing_by all_goals simp [esize] <;> omega

/-- Removing from a bag what remains after deleting one copy of a present
element leaves exactly that one copy. -/
theorem ms_sub_sub_singleton {a : Multiset Int} {y : Int} (h : y ∈ a) :
    a - (a - {y}) = {y} := by
  ext z
  by_cases hz : z = y
  · subst hz
    have hc := Multiset.one_le_count_iff_mem.mpr h
    simp [Multiset.count_sub, Multiset.count_singleton]
    omega
  · simp [Multiset.count_sub, Multiset.count_singleton, hz]

/-- Deleting an absent element changes nothing. -/
theorem ms_sub_singleton_not_mem {a : Multiset Int} {y : Int} (h : y ∉ a) :
    a - {y} = a := by
  rw [Multiset.sub_singleton, Multiset.erase_of_not_mem h]

/-- Removing from a bag its erase at a present element leaves that one
copy. -/
theorem ms_sub_erase_mem {a : Multiset Int} {y : Int} (h : y ∈ a) :
    a - a.erase y = {y} := by
  ext z
  by_cases hz : z = y
  · subst hz
    rw [Multiset.count_sub, Multiset.count_erase_self,
      Multiset.count_singleton]
    have := Multiset.one_le_count_iff_mem.mpr h
    simp
    omega
  · rw [Multiset.count_sub, Multiset.count_erase_of_ne hz,
      Multiset.count_singleton]
    simp [hz]

/-- The two-sided difference reconstruction: a − (a − b) + (b − a) = b. -/
theorem ms_delta (a b : Multiset Int) : a - (a - b) + (b - a) = b := by
  ext z
  simp [Multiset.count_sub]
  omega

/-- The two difference directions never share an element. -/
theorem ms_disj (a b : Multiset Int) : (b - a) ∩ (a - b) = 0 := by
  ext z
  simp [Multiset.count_inter, Multiset.count_sub]
  omega

/-- An element expression that evaluates to a value is never a definite
member by element_of: the only definite case needs a uThe node, which is
outside the executable fragment. -/
theorem definitely_element_of_false {y bag : Exp} {env : Env} {v : Value}
    (hy : eval y env = some v) : definitely (element_of y bag) = false := by
  cases y
  case EUnaryOp op xe =>
    cases op
    case uThe => simp [eval] at hy
    all_goals cases bag <;> rfl
  all_goals cases bag <;> rfl

/-- When the element is not a definite member, bag_contains is the equality
test on a singleton bag and the membership test otherwise. -/
theorem bag_contains_cases {e1 y : Exp}
    (hdef : definitely (element_of y e1) = false) :
    (∃ b', e1 = ESingleton b' ∧ bag_contains e1 y = equal b' y) ∨
      bag_contains e1 y = eIn y e1 := by
  unfold bag_contains
  simp only [hdef, Bool.false_eq_true, if_false]
  cases e1
  case ESingleton b' => exact Or.inl ⟨b', rfl, rfl⟩
  all_goals exact Or.inr rfl

/-- Soundness of the final bag_subtract cases: the singleton/singleton fork
and the symbolic difference both denote the multiset difference. -/
theorem bag_subtract_step9_sound {ctx : Ctx} {A e1 e2 r : Exp} {env : Env}
    {a b : Multiset Int}
    (hs : sound_solver ctx.valid) (hA : sat env A)
    (h1 : eval e1 env = some (VBag a)) (h2 : eval e2 env = some (VBag b))
    (h : bag_subtract_step9 ctx A e1 e2 = .ok r) :
    eval r env = some (VBag (a - b)) := by
  unfold bag_subtract_step9 at h
  split at h
  · rename_i x1 x2
    simp only [eval] at h1 h2
    rcases hx1 : eval x1 env with _ | w1
    · rw [hx1] at h1; simp at h1
    · rw [hx1] at h1
      rcases w1 with v1 | bb1 | g1
      · rcases hx2 : eval x2 env with _ | w2
        · rw [hx2] at h2; simp at h2
        · rw [hx2] at h2
          rcases w2 with v2 | bb2 | g2
          · replace h1 : some (VBag ({v1} : Multiset Int)) = some (VBag a) :=
              h1
            replace h2 : some (VBag ({v2} : Multiset Int)) = some (VBag b) :=
              h2
            have ha : a = {v1} := by simpa using h1.symm
            have hb : b = {v2} := by simpa using h2.symm
            subst ha; subst hb
            have hcond : eval (equal x1 x2) env =
                some (VBool (decide (v1 = v2))) := by
              simp [equal, eEq, eval, hx1, hx2, eval_bin]
            have hforks := fork_sound ctx A env hs hA (equal x1 x2)
              (decide (v1 = v2)) EEmptyList (ESingleton x1) r hcond h
            rcases hforks with ⟨hw, hr⟩ | ⟨hw, hr⟩
            · have hveq : v1 = v2 := of_decide_eq_true hw
              subst hveq; subst hr
              simp [eval, tsub_self]
            · have hvne : v1 ≠ v2 := of_decide_eq_false hw
              subst hr
              rw [ms_sub_singleton_not_mem (by simp [Ne.symm hvne])]
              simp [eval, hx1]
          · simp at h2
          · simp at h2
      · simp at h1
      · simp at h1
  · have hr : r = EBinOp e1 .sub e2 := by
      simpa [pure, Except.pure] using h.symm
    subst hr
    simp [eval, h1, h2, eval_bin]

/-- Soundness of bag_subtract's guarded subtraction-pattern case: when the
right argument is the left one minus a singleton, the fork on membership of
the removed element denotes the multiset difference; otherwise the final
cases apply. -/
theorem bag_subtract_step8_sound {ctx : Ctx} {A e1 e2 r : Exp} {env : Env}
    {a b : Multiset Int}
    (hs : sound_solver ctx.valid) (hA : sat env A)
    (h1 : eval e1 env = some (VBag a)) (h2 : eval e2 env = some (VBag b))
    (h : bag_subtract_step8 ctx A e1 e2 = .ok r) :
    eval r env = some (VBag (a - b)) := by
  unfold bag_subtract_step8 at h
  split at h
  · rename_i a2 y
    split at h
    · rename_i halpha
      simp only [eval, opt_bind_eq_some] at h2
      obtain ⟨w1, hw1, w2, hw2, hbin⟩ := h2
      rcases hy : eval y env with _ | wy
      · rw [hy] at hw2; simp at hw2
      · rw [hy] at hw2
        rcases wy with yv | yb | yg
        · replace hw2 : some (VBag ({yv} : Multiset Int)) = some w2 := hw2
          have hw2' : w2 = VBag {yv} := by
            injection hw2 with hh
            exact hh.symm
          subst hw2'
          rcases w1 with k1 | bb1 | g1 <;> simp [eval_bin] at hbin
          have hev := alpha_equivalent_eval env halpha
          rw [hw1, h1] at hev
          have hg1 : g1 = a := by simpa using hev
          rw [hg1] at hbin
          subst hbin
          have hdef : definitely (element_of y e1) = false :=
            definitely_element_of_false hy
          rcases bag_contains_cases hdef with ⟨b', he1, hcontains⟩ | hcontains
          · subst he1
            rw [hcontains] at h
            simp only [eval] at h1
            rcases hb' : eval b' env with _ | wb
            · rw [hb'] at h1; simp at h1
            · rw [hb'] at h1
              rcases wb with bv | _ | _
              · replace h1 : some (VBag ({bv} : Multiset Int)) =
                    some (VBag a) := h1
                have ha : a = {bv} := by simpa using h1.symm
                subst ha
                have hcond : eval (equal b' y) env =
                    some (VBool (decide (bv = yv))) := by
                  simp [equal, eEq, eval, hb', hy, eval_bin]
                have hforks := fork_sound ctx A env hs hA (equal b' y)
                  (decide (bv = yv)) (ESingleton y) EEmptyList r hcond h
                rcases hforks with ⟨hw, hr⟩ | ⟨hw, hr⟩
                · have hveq : bv = yv := of_decide_eq_true hw
                  subst hveq; subst hr
                  simp [eval, hy,
                    ms_sub_sub_singleton (Multiset.mem_singleton_self bv)]
                · have hvne : bv ≠ yv := of_decide_eq_false hw
                  subst hr
                  rw [Multiset.erase_of_not_mem
                    (show yv ∉ ({bv} : Multiset Int) by
                      simp [Ne.symm hvne]), tsub_self]
                  simp [eval]
              · simp at h1
              · simp at h1
          · rw [hcontains] at h
            have hcond : eval (eIn y e1) env =
                some (VBool (decide (yv ∈ a))) := by
              simp [eIn, eval, hy, h1, eval_bin]
            have hforks := fork_sound ctx A env hs hA (eIn y e1)
              (decide (yv ∈ a)) (ESingleton y) EEmptyList r hcond h
            rcases hforks with ⟨hw, hr⟩ | ⟨hw, hr⟩
            · have hmem : yv ∈ a := of_decide_eq_true hw
              subst hr
              simp [eval, hy, ms_sub_erase_mem hmem]
            · have hnmem : yv ∉ a := of_decide_eq_false hw
              subst hr
              simp [eval, Multiset.erase_of_not_mem hnmem, tsub_self]
        · simp at hw2
        · simp at hw2
    · exact bag_subtract_step9_sound hs hA h1 h2 h
  · exact bag_subtract_step9_sound hs hA h1 h2 h

/-- Soundness of bag_subtract: under a sound oracle and satisfied
assumptions, when both arguments evaluate to bags and the rewrite returns
normally, the result evaluates to the truncated multiset difference. -/
theorem bag_subtract_sound :
    ∀ (fuel : Nat) (ctx : Ctx) (A e1 e2 r : Exp) (env : Env)
      (a b : Multiset Int),
      sound_solver ctx.valid → sat env A →
      eval e1 env = some (VBag a) → eval e2 env = some (VBag b) →
      bag_subtract fuel ctx A e1 e2 = .ok r →
      eval r env = some (VBag (a - b)) := by
  intro fuel
  induction fuel with
  | zero =>
    intro ctx A e1 e2 r env a b _ _ _ _ h
    simp [bag_subtract] at h
  | succ n ih =>
    intro ctx A e1 e2 r env a b hs hA h1 h2 h
    simp only [bag_subtract] at h
    split at h
    · -- e1 is the empty bag
      have hr : r = EEmptyList := by simpa [pure, Except.pure] using h.symm
      subst hr
      have ha : a = 0 := by simpa [eval] using h1.symm
      subst ha
      simp [eval, zero_tsub]
    · -- e2 is the empty bag
      have hb : b = 0 := by simpa [eval] using h2.symm
      subst hb
      have hr : r = e1 := by simpa [pure, Except.pure] using h.symm
      subst hr
      simpa [tsub_zero] using h1
    · split at h
      · -- alpha-equivalent arguments cancel
        rename_i halpha
        have hr : r = EEmptyList := by simpa [pure, Except.pure] using h.symm
        subst hr
        have hab : a = b := by
          have hev := alpha_equivalent_eval env halpha
          rw [h1, h2] at hev
          simpa using hev
        subst hab
        simp [eval, tsub_self]
      · split at h
        · -- e2 is a conditional: fork on its guard
          rename_i c t el _ _
          rw [exc_bind_eq_ok] at h
          obtain ⟨xx, hx, h⟩ := h
          rw [exc_bind_eq_ok] at h
          obtain ⟨yy, hy, h⟩ := h
          simp only [eval] at h2
          rcases hc : eval c env with _ | w
          · rw [hc] at h2; simp at h2
          · rw [hc] at h2
            rcases w with k | bb | g
            · simp at h2
            · have hforks := fork_sound ctx A env hs hA c bb xx yy r hc h
              cases bb
              · replace h2 : eval el env = some (VBag b) := h2
                rcases hforks with ⟨hbb, _⟩ | ⟨_, hr⟩
                · exact absurd hbb (by simp)
                · rw [hr]
                  exact ih ctx A e1 el yy env a b hs hA h1 h2 hy
              · replace h2 : eval t env = some (VBag b) := h2
                rcases hforks with ⟨_, hr⟩ | ⟨hbb, _⟩
                · rw [hr]
                  exact ih ctx A e1 t xx env a b hs hA h1 h2 hx
                · exact absurd hbb (by simp)
            · simp at h2
        · split at h
          · -- e1 is a conditional: fork on its guard
            rename_i c t el _ _
            rw [exc_bind_eq_ok] at h
            obtain ⟨xx, hx, h⟩ := h
            rw [exc_bind_eq_ok] at h
            obtain ⟨yy, hy, h⟩ := h
            simp only [eval] at h1
            rcases hc : eval c env with _ | w
            · rw [hc] at h1; simp at h1
            · rw [hc] at h1
              rcases w with k | bb | g
              · simp at h1
              · have hforks := fork_sound ctx A env hs hA c bb xx yy r hc h
                cases bb
                · replace h1 : eval el env = some (VBag a) := h1
                  rcases hforks with ⟨hbb, _⟩ | ⟨_, hr⟩
                  · exact absurd hbb (by simp)
                  · rw [hr]
                    exact ih ctx A el e2 yy env a b hs hA h1 h2 hy
                · replace h1 : eval t env = some (VBag a) := h1
                  rcases hforks with ⟨_, hr⟩ | ⟨hbb, _⟩
                  · rw [hr]
                    exact ih ctx A t e2 xx env a b hs hA h1 h2 hx
                  · exact absurd hbb (by simp)
              · simp at h1
          · split at h
            · -- e2 is a union: subtract both parts in turn
              rename_i a2 b2 _ _ _
              rw [exc_bind_eq_ok] at h
              obtain ⟨r1, hr1, h⟩ := h
              simp only [eval, opt_bind_eq_some] at h2
              obtain ⟨w1, hw1, w2, hw2, hbin⟩ := h2
              rcases w1 with k1 | bb1 | g1 <;> rcases w2 with k2 | bb2 | g2 <;>
                simp [eval_bin] at hbin
              have hr1v := ih ctx A e1 a2 r1 env a g1 hs hA h1 hw1 hr1
              have hrv := ih ctx A r1 b2 r env (a - g1) g2 hs hA hr1v hw2 h
              rw [hrv, ← hbin, tsub_add_eq_tsub_tsub]
            · -- the guarded fall-through block
              split at h
              · -- e1 = a1 − d with a1 alpha-equal to e2
                split at h
                · rename_i a1 d halpha2
                  have hr : r = EEmptyList := by
                    simpa [pure, Except.pure] using h.symm
                  subst hr
                  simp only [eval, opt_bind_eq_some] at h1
                  obtain ⟨w1, hw1, w2, hw2, hbin⟩ := h1
                  rcases w1 with k1 | bb1 | g1 <;>
                    rcases w2 with k2 | bb2 | g2 <;>
                    simp [eval_bin] at hbin
                  have hev := alpha_equivalent_eval env halpha2
                  rw [hw1, h2] at hev
                  have hg1 : g1 = b := by simpa using hev
                  subst hg1
                  subst hbin
                  simp [eval, tsub_eq_zero_of_le tsub_le_self]
                · -- fall through to the subtraction-pattern test
                  exact bag_subtract_step8_sound hs hA h1 h2 h
              · exact bag_subtract_step8_sound hs hA h1 h2 h

/-- A bag-valued union evaluates both parts to bags and adds them. -/
theorem eval_add_bags {p q : Exp} {env : Env} {m : Multiset Int}
    (h : eval (EBinOp p .add q) env = some (VBag m)) :
    ∃ u v : Multiset Int, eval p env = some (VBag u) ∧
      eval q env = some (VBag v) ∧ m = u + v := by
  simp only [eval, opt_bind_eq_some] at h
  obtain ⟨w1, hw1, w2, hw2, hbin⟩ := h
  rcases w1 with _ | _ | u <;> rcases w2 with _ | _ | v <;>
    simp [eval_bin] at hbin
  exact ⟨u, v, hw1, hw2, hbin.symm⟩

/-- A bag-valued difference evaluates both parts to bags and subtracts. -/
theorem eval_sub_bags {p q : Exp} {env : Env} {m : Multiset Int}
    (h : eval (EBinOp p .sub q) env = some (VBag m)) :
    ∃ u v : Multiset Int, eval p env = some (VBag u) ∧
      eval q env = some (VBag v) ∧ m = u - v := by
  simp only [eval, opt_bind_eq_some] at h
  obtain ⟨w1, hw1, w2, hw2, hbin⟩ := h
  rcases w1 with _ | _ | u <;> rcases w2 with _ | _ | v <;>
    simp [eval_bin] at hbin
  exact ⟨u, v, hw1, hw2, hbin.symm⟩

/-- A union of two expressions denoting empty bags denotes the empty bag. -/
theorem bag_union_eval_zero {p q : Exp} {env : Env}
    (hp : eval p env = some (VBag 0)) (hq : eval q env = some (VBag 0)) :
    eval (bag_union p q) env = some (VBag 0) := by
  unfold bag_union
  split
  · exact hq
  · exact hp
  · simp [eval, hp, hq, eval_bin]

/-- When the guard evaluates true, the conditional smart constructor
evaluates to the then-branch. -/
theorem condE_eval_true {c t e : Exp} {env : Env}
    (hc : eval c env = some (VBool true)) :
    eval (condE c t e) env = eval t env := by
  unfold condE
  split
  · rfl
  · simp [eval] at hc
  · split
    · rfl
    · simp [eval, hc]

/-- When the guard evaluates false, the conditional smart constructor
evaluates to the else-branch. -/
theorem condE_eval_false {c t e : Exp} {env : Env}
    (hc : eval c env = some (VBool false)) :
    eval (condE c t e) env = eval e env := by
  unfold condE
  split
  · simp [eval] at hc
  · rfl
  · split
    · rename_i halpha
      exact alpha_equivalent_eval env halpha
    · simp [eval, hc]

/-- C7: mutate on a no-op returns the expression itself, and a successful
checked_bag_delta under a no-op on any expression denoting a bag returns a
pair whose added and removed components both denote the empty bag (under a
sound oracle and satisfied assumptions, which the singleton case's fork
consults). -/
theorem mutate_noop_id_and_bag_delta_noop_empty :
    (∀ (n : Nat) (e : Exp), mutate (n + 1) e SNoOp = some e) ∧
    (∀ (n : Nat) (ctx : Ctx) (A e add rem : Exp) (env : Env)
      (be : Multiset Int),
      sound_solver ctx.valid → sat env A →
      eval e env = some (VBag be) →
      checked_bag_delta n ctx e SNoOp A = .ok (add, rem) →
      eval add env = some (VBag 0) ∧ eval rem env = some (VBag 0)) := by
  constructor
  · intro n e; rfl
  · intro n
    induction n using Nat.strong_induction_on with
    | _ n ih =>
    intro ctx A e add rem env be hs hA heval hok
    obtain ⟨m, hm, hcases⟩ := checked_bag_delta_ok_unwrap hok
    match m, hcases with
    | 0, hcases => simp [bag_delta_cases] at hcases
    | m1 + 1, hcases =>
      have hlt : ∀ k, k ≤ m1 → k < n := by omega
      cases e with
      | EVar x =>
        match m1, hcases with
        | 0, hcases => simp [bag_delta_cases, mutate] at hcases
        | m2 + 1, hcases =>
          simp only [bag_delta_cases, mutate, bag_delta_var_fallback]
            at hcases
          rw [show bag_subtract (m2 + 1) ctx A (EVar x) (EVar x) =
              .ok EEmptyList by
                simp [bag_subtract, alpha_equivalent_refl, pure, Except.pure]]
            at hcases
          simp [pure, Except.pure] at hcases
          obtain ⟨ha, hb⟩ := hcases
          subst ha; subst hb
          exact ⟨rfl, rfl⟩
      | EEmptyList =>
        simp only [bag_delta_cases] at hcases
        simp [pure, Except.pure] at hcases
        obtain ⟨ha, hb⟩ := hcases
        subst ha; subst hb
        exact ⟨rfl, rfl⟩
      | EBinOp a op b =>
        cases op with
        | add =>
          obtain ⟨u, v, hu, hv, hbe⟩ := eval_add_bags heval
          simp only [bag_delta_cases] at hcases
          obtain ⟨⟨n1, d1⟩, h1, hrest⟩ := except_bind_ok hcases
          obtain ⟨⟨n2, d2⟩, h2, hpure⟩ := except_bind_ok hrest
          obtain ⟨hn1, hd1⟩ := ih m1 (hlt m1 le_rfl) ctx A a n1 d1 env u
            hs hA hu h1
          obtain ⟨hn2, hd2⟩ := ih m1 (hlt m1 le_rfl) ctx A b n2 d2 env v
            hs hA hv h2
          obtain ⟨he1, he2⟩ : bag_union n1 n2 = add ∧ bag_union d1 d2 = rem
            := by simpa [pure, Except.pure] using hpure
          subst he1; subst he2
          exact ⟨bag_union_eval_zero hn1 hn2, bag_union_eval_zero hd1 hd2⟩
        | sub =>
          obtain ⟨u, v, hu, hv, hbe⟩ := eval_sub_bags heval
          simp only [bag_delta_cases] at hcases
          obtain ⟨⟨n1, d1⟩, h1, hrest⟩ := except_bind_ok hcases
          obtain ⟨⟨n2, d2⟩, h2, hpure⟩ := except_bind_ok hrest
          obtain ⟨hn1, hd1⟩ := ih m1 (hlt m1 le_rfl) ctx A a n1 d1 env u
            hs hA hu h1
          obtain ⟨hn2, hd2⟩ := ih m1 (hlt m1 le_rfl) ctx A b n2 d2 env v
            hs hA hv h2
          obtain ⟨he1, he2⟩ : bag_union n1 d2 = add ∧ bag_union d1 n2 = rem
            := by simpa [pure, Except.pure] using hpure
          subst he1; subst he2
          exact ⟨bag_union_eval_zero hn1 hd2, bag_union_eval_zero hd1 hn2⟩
        | eq => simp [bag_delta_cases] at hcases
        | conj => simp [bag_delta_cases] at hcases
        | disj => simp [bag_delta_cases] at hcases
        | impl => simp [bag_delta_cases] at hcases
        | mem => simp [bag_delta_cases] at hcases
        | gt => simp [bag_delta_cases] at hcases
        | ge => simp [bag_delta_cases] at hcases
        | intersect => simp [bag_delta_cases] at hcases
      | ECond c t el =>
        simp only [eval] at heval
        rcases hc : eval c env with _ | w
        · rw [hc] at heval; simp at heval
        · rw [hc] at heval
          rcases w with k | wb | g
          · simp at heval
          · match m1, hcases with
            | 0, hcases => simp [bag_delta_cases, mutate] at hcases
            | m2 + 1, hcases =>
              simp only [bag_delta_cases, mutate, alpha_equivalent_refl]
                at hcases
              simp only [if_true] at hcases
              obtain ⟨⟨n1, d1⟩, h1, hrest⟩ := except_bind_ok hcases
              obtain ⟨⟨n2, d2⟩, h2, hpure⟩ := except_bind_ok hrest
              obtain ⟨he1, he2⟩ :
                  condE c n1 n2 = add ∧ condE c d1 d2 = rem := by
                simpa [pure, Except.pure] using hpure
              subst he1; subst he2
              cases wb
              · replace heval : eval el env = some (VBag be) := heval
                obtain ⟨hn2, hd2⟩ := ih (m2 + 1) (by omega) ctx A el n2 d2
                  env be hs hA heval h2
                constructor
                · rw [condE_eval_false hc]; exact hn2
                · rw [condE_eval_false hc]; exact hd2
              · replace heval : eval t env = some (VBag be) := heval
                obtain ⟨hn1, hd1⟩ := ih (m2 + 1) (by omega) ctx A t n1 d1
                  env be hs hA heval h1
                constructor
                · rw [condE_eval_true hc]; exact hn1
                · rw [condE_eval_true hc]; exact hd1
          · simp at heval
      | EStateVar inner =>
        replace heval : eval inner env = some (VBag be) := heval
        simp only [bag_delta_cases] at hcases
        exact ih m1 (hlt m1 le_rfl) ctx A inner add rem env be hs hA heval
          hcases
      | ESingleton x =>
        simp only [eval] at heval
        rcases hx : eval x env with _ | w
        · rw [hx] at heval; simp at heval
        · rw [hx] at heval
          rcases w with v | wb | g
          · match m1, hcases with
            | 0, hcases => simp [bag_delta_cases, better_mutate] at hcases
            | m2 + 1, hcases =>
              match m2, hcases with
              | 0, hcases =>
                simp [bag_delta_cases, better_mutate, mutate] at hcases
              | m3 + 1, hcases =>
                simp only [bag_delta_cases, better_mutate, mutate,
                  alpha_equivalent_refl, if_true, pure, Except.pure,
                  ok_bind] at hcases
                have hcond : eval (eEq x (EStateVar x)) env =
                    some (VBool true) := by
                  simp [eEq, eval, hx, eval_bin]
                have hforks := fork_sound ctx A env hs hA
                  (eEq x (EStateVar x)) true (EEmptyList, EEmptyList)
                  (ESingleton (EStateVar x), ESingleton x) (add, rem)
                  hcond hcases
                rcases hforks with ⟨_, hr⟩ | ⟨hcontra, _⟩
                · obtain ⟨he1, he2⟩ : EEmptyList = add ∧ EEmptyList = rem
                    := by simpa using hr.symm
                  subst he1; subst he2
                  exact ⟨rfl, rfl⟩
                · exact absurd hcontra (by simp)
          · simp at heval
          · simp at heval
      | ENum k => simp [bag_delta_cases] at hcases
      | EBool b => simp [bag_delta_cases] at hcases
      | ELambda a b => simp [bag_delta_cases] at hcases
      | ECall f args => simp [bag_delta_cases] at hcases
      | EUnaryOp op x => simp [bag_delta_cases] at hcases
      | EArgMin a b => simp [bag_delta_cases] at hcases
      | EArgMax a b => simp [bag_delta_cases] at hcases
      | EMakeMinHeap a b => simp [bag_delta_cases] at hcases
      | EMakeMaxHeap a b => simp [bag_delta_cases] at hcases
      | EHeapPeek2 a b => simp [bag_delta_cases] at hcases

/-- Witness for C7's second part at a concrete bag-denoting expression. -/
theorem mutate_noop_id_and_bag_delta_noop_empty_witness :
    eval EEmptyList (fun _ => VBag ({1} : Multiset Int)) = some (VBag 0) ∧
    eval EEmptyList (fun _ => VBag ({1} : Multiset Int)) = some (VBag 0) :=
  mutate_noop_id_and_bag_delta_noop_empty.2 20 ctx_trivial eT
    (EBinOp (EStateVar (EVar "a")) .add (EBinOp (EVar "b") .sub EEmptyList))
    EEmptyList EEmptyList (fun _ => VBag {1}) ({1} + ({1} - 0))
    sound_solver_trivial rfl rfl rfl

/-- Soundness of the variable case's generic fallback: the two subtraction
directions denote new − old and old − new, which reconstruct the new bag. -/
theorem bag_delta_var_fallback_sound {n : Nat} {ctx : Ctx}
    {A new_e added removed : Exp} {x : String} {env : Env}
    {a b : Multiset Int}
    (hs : sound_solver ctx.valid) (hA : sat env A)
    (hx : env x = VBag a) (hnew : eval new_e env = some (VBag b))
    (h : bag_delta_var_fallback n ctx A new_e x = .ok (added, removed)) :
    eval added env = some (VBag (b - a)) ∧
      eval removed env = some (VBag (a - b)) := by
  unfold bag_delta_var_fallback at h
  rw [exc_bind_eq_ok] at h
  obtain ⟨r1, hr1, h⟩ := h
  rw [exc_bind_eq_ok] at h
  obtain ⟨r2, hr2, h⟩ := h
  have hpair : (r1, r2) = (added, removed) := by
    simpa [pure, Except.pure] using h
  have hxev : eval (EVar x) env = some (VBag a) := by simp [eval, hx]
  have hv1 := bag_subtract_sound n ctx A new_e (EVar x) r1 env b a hs hA
    hnew hxev hr1
  have hv2 := bag_subtract_sound n ctx A (EVar x) new_e r2 env a b hs hA
    hxev hnew hr2
  obtain ⟨he1, he2⟩ : r1 = added ∧ r2 = removed := by simpa using hpair
  subst he1; subst he2
  exact ⟨hv1, hv2⟩

/-- C1 as amended: the original claim fails on compound collections (see the
counterexample), but on a bare state variable checked_bag_delta is sound:
under a sound oracle and satisfied assumptions, whenever the variable holds
a bag, the statement's mutation of the variable evaluates to a bag, and
checked_bag_delta returns (added, removed), both components evaluate to bags
and old − removed + added is exactly the mutated bag.  The fuel offset
matches the nested unfolding depth of checked_bag_delta. -/
theorem checked_bag_delta_var_sound :
    ∀ (n : Nat) (ctx : Ctx) (x : String) (s : Stm) (A : Exp) (env : Env)
      (added removed new_e : Exp) (a b : Multiset Int),
      sound_solver ctx.valid → sat env A →
      env x = VBag a →
      mutate n (EVar x) s = some new_e →
      eval new_e env = some (VBag b) →
      checked_bag_delta (n + 3) ctx (EVar x) s A = .ok (added, removed) →
      ∃ av rv, eval added env = some (VBag av) ∧
        eval removed env = some (VBag rv) ∧ a - rv + av = b := by
  intro n ctx x s A env added removed new_e a b hs hA hx hmut hnew h
  have h2 : ((bag_delta_cases (n + 1) ctx (EVar x) s A) >>= fun r =>
      if esize r.2 > 100 then (Except.error Err.valueError :
        Except Err (Exp × Exp)) else pure r) = .ok (added, removed) := h
  rw [exc_bind_eq_ok] at h2
  obtain ⟨r, hr, hif⟩ := h2
  have hrs : r = (added, removed) := by
    by_cases hsz : esize r.2 > 100
    · rw [if_pos hsz] at hif
      exact absurd hif (by simp)
    · rw [if_neg hsz] at hif
      simpa [pure, Except.pure] using hif
  subst hrs
  simp only [bag_delta_cases] at hr
  split at hr
  · exact absurd hr (by simp)
  · rename_i ne heq
    rw [hmut] at heq
    injection heq with heq'
    subst heq'
    split at hr
    · rename_i a' d nn
      split at hr
      · rename_i halpha
        have hpair : (nn, d) = (added, removed) := by
          simpa [pure, Except.pure] using hr
        obtain ⟨u, nv, hu, hnn, hb⟩ := eval_add_bags hnew
        obtain ⟨av', dv, ha', hd, hu'⟩ := eval_sub_bags hu
        have hae := alpha_equivalent_eval env halpha
        rw [ha', show eval (EVar x) env = some (env x) from rfl, hx] at hae
        have hav : av' = a := by simpa using hae
        subst hav
        obtain ⟨he1, he2⟩ : nn = added ∧ d = removed := by simpa using hpair
        subst he1; subst he2
        exact ⟨nv, dv, hnn, hd, by rw [hb, hu']⟩
      · split at hr
        · rename_i halpha2
          have hpair : (nn, EEmptyList) = (added, removed) := by
            simpa [pure, Except.pure] using hr
          obtain ⟨u, nv, hu, hnn, hb⟩ := eval_add_bags hnew
          have hae := alpha_equivalent_eval env halpha2
          rw [hu, show eval (EVar x) env = some (env x) from rfl, hx] at hae
          have hua : u = a := by simpa using hae
          subst hua
          obtain ⟨he1, he2⟩ : nn = added ∧ EEmptyList = removed := by
            simpa using hpair
          subst he1; subst he2
          exact ⟨nv, 0, hnn, by simp [eval], by rw [hb, tsub_zero]⟩
        · exact (fun hfb => ⟨b - a, a - b, hfb.1, hfb.2, ms_delta a b⟩) (bag_delta_var_fallback_sound hs hA hx hnew hr)
    · rename_i a' nn _
      split at hr
      · rename_i halpha
        have hpair : (nn, EEmptyList) = (added, removed) := by
          simpa [pure, Except.pure] using hr
        obtain ⟨u, nv, hu, hnn, hb⟩ := eval_add_bags hnew
        have hae := alpha_equivalent_eval env halpha
        rw [hu, show eval (EVar x) env = some (env x) from rfl, hx] at hae
        have hua : u = a := by simpa using hae
        subst hua
        obtain ⟨he1, he2⟩ : nn = added ∧ EEmptyList = removed := by
          simpa using hpair
        subst he1; subst he2
        exact ⟨nv, 0, hnn, by simp [eval], by rw [hb, tsub_zero]⟩
      · exact (fun hfb => ⟨b - a, a - b, hfb.1, hfb.2, ms_delta a b⟩) (bag_delta_var_fallback_sound hs hA hx hnew hr)
    · exact (fun hfb => ⟨b - a, a - b, hfb.1, hfb.2, ms_delta a b⟩) (bag_delta_var_fallback_sound hs hA hx hnew hr)

/-- The syntactic shortcut patterns of bag_delta's variable case: a mutation
result of the shape (x − d) + n or x + n (up to alpha-equivalence of the
base with the variable) is answered directly without canonicalizing. -/
def var_delta_pattern (x : String) : Exp → Bool
  | EBinOp (EBinOp a .sub d) .add _ =>
    alpha_equivalent a (EVar x) ||
      alpha_equivalent (EBinOp a .sub d) (EVar x)
  | EBinOp a .add _ => alpha_equivalent a (EVar x)
  | _ => false

/-- On a union whose left part is not itself a difference, the pattern test
is the alpha test of the left part against the variable. -/
theorem var_delta_pattern_add {x : String} {p nn : Exp}
    (hnot : ∀ a1 d : Exp, p = EBinOp a1 .sub d → False) :
    var_delta_pattern x (EBinOp p .add nn) = alpha_equivalent p (EVar x) := by
  cases p
  case EBinOp q op w =>
    cases op
    case sub => exact (hnot q w rfl).elim
    all_goals rfl
  all_goals rfl

/-- C3 as amended: the original disjointness claim fails when the syntactic
shortcut answers (see the counterexample); when the shortcut does not fire,
the canonical fallback's two subtraction directions are provably disjoint:
no element occurs in both the added and the removed bag. -/
theorem checked_bag_delta_var_disjoint :
    ∀ (n : Nat) (ctx : Ctx) (x : String) (s : Stm) (A : Exp) (env : Env)
      (added removed new_e : Exp) (a b : Multiset Int),
      sound_solver ctx.valid → sat env A →
      env x = VBag a →
      mutate n (EVar x) s = some new_e →
      eval new_e env = some (VBag b) →
      var_delta_pattern x new_e = false →
      checked_bag_delta (n + 3) ctx (EVar x) s A = .ok (added, removed) →
      ∃ av rv, eval added env = some (VBag av) ∧
        eval removed env = some (VBag rv) ∧ av ∩ rv = 0 := by
  intro n ctx x s A env added removed new_e a b hs hA hx hmut hnew hpat h
  have h2 : ((bag_delta_cases (n + 1) ctx (EVar x) s A) >>= fun r =>
      if esize r.2 > 100 then (Except.error Err.valueError :
        Except Err (Exp × Exp)) else pure r) = .ok (added, removed) := h
  rw [exc_bind_eq_ok] at h2
  obtain ⟨r, hr, hif⟩ := h2
  have hrs : r = (added, removed) := by
    by_cases hsz : esize r.2 > 100
    · rw [if_pos hsz] at hif
      exact absurd hif (by simp)
    · rw [if_neg hsz] at hif
      simpa [pure, Except.pure] using hif
  subst hrs
  simp only [bag_delta_cases] at hr
  split at hr
  · exact absurd hr (by simp)
  · rename_i ne heq
    rw [hmut] at heq
    injection heq with heq'
    subst heq'
    split at hr
    · rename_i a' d nn
      split at hr
      · rename_i halpha
        rw [show var_delta_pattern x
            (EBinOp (EBinOp a' .sub d) .add nn) =
            (alpha_equivalent a' (EVar x) ||
              alpha_equivalent (EBinOp a' .sub d) (EVar x)) from rfl,
          halpha] at hpat
        simp at hpat
      · split at hr
        · rename_i halpha2
          rw [show var_delta_pattern x
              (EBinOp (EBinOp a' .sub d) .add nn) =
              (alpha_equivalent a' (EVar x) ||
                alpha_equivalent (EBinOp a' .sub d) (EVar x)) from rfl,
            halpha2] at hpat
          simp at hpat
        · obtain ⟨hv1, hv2⟩ :=
            bag_delta_var_fallback_sound hs hA hx hnew hr
          exact ⟨b - a, a - b, hv1, hv2, ms_disj a b⟩
    · rename_i a' nn hnot
      split at hr
      · rename_i halpha
        rw [var_delta_pattern_add hnot, halpha] at hpat
        simp at hpat
      · obtain ⟨hv1, hv2⟩ :=
          bag_delta_var_fallback_sound hs hA hx hnew hr
        exact ⟨b - a, a - b, hv1, hv2, ms_disj a b⟩
    · obtain ⟨hv1, hv2⟩ := bag_delta_var_fallback_sound hs hA hx hnew hr
      exact ⟨b - a, a - b, hv1, hv2, ms_disj a b⟩

theorem checked_bag_delta_var_disjoint_witness :
    ∃ av rv, eval EEmptyList (fun _ => VBag {1}) = some (VBag av) ∧
      eval (EVar "x") (fun _ => VBag {1}) = some (VBag rv) ∧
      av ∩ rv = 0 :=
  checked_bag_delta_var_disjoint 1 ctx_trivial "x"
    (SAssign (EVar "x") EEmptyList) eT (fun _ => VBag {1})
    EEmptyList (EVar "x") EEmptyList {1} 0
    sound_solver_trivial rfl rfl rfl rfl rfl rfl

theorem checked_bag_delta_var_sound_witness :
    ∃ av rv,
      eval (ESingleton (ENum 5)) (fun _ => VBag {1}) = some (VBag av) ∧
      eval EEmptyList (fun _ => VBag {1}) = some (VBag rv) ∧
      ({1} : Multiset Int) - rv + av = {1, 5} :=
  checked_bag_delta_var_sound 3 ctx_trivial "x"
    (SCall (EVar "x") "add" (ENum 5)) eT (fun _ => VBag {1})
    (ESingleton (ENum 5)) EEmptyList
    (EBinOp (EVar "x") .add (ESingleton (ENum 5))) {1} {1, 5}
    sound_solver_trivial rfl rfl rfl rfl rfl

end Cozy
